import Mathlib

/-!
Shallow embedding of the sparse-vector search engine
(qdrant/sparse-vectors-experiments) in Lean 4.

Modelling conventions:
* Machine integers (`u32` dimension/record ids, `usize`) are modelled as `Nat`; where the source
  relies on `u32::MAX` as a sentinel the literal `4294967295` is used.
* `f32` weights are modelled as `ℚ` (exact arithmetic); the sentinel value
  `f32::NEG_INFINITY` used in `max_next_weight` is modelled as `⊥ : WithBot ℚ`.
  Floating-point rounding is abstracted away: score computations are exact.
* Fallible code (Rust panics) is modelled with `Option`/`Except`.
* Rust's stable `sort_by_key` / `sort_by` are modelled by a stable insertion
  sort `insSortBy`.
-/

namespace SparseExp

/-- `DimWeight` (f32 in the source), modelled exactly as a rational. -/
abbrev DimWeight := ℚ

/-- `u32::MAX`, used as a sentinel by `advance` and `prune_longest_posting_list`. -/
def u32MAX : Nat := 4294967295

/-- src/vector.rs: `SparseVector { indices, weights }`. -/
structure SparseVector where
  indices : List Nat
  weights : List DimWeight
deriving DecidableEq, Repr

/-- The two-cursor merge loop of `SparseVector::dot_product`
(src/vector.rs lines 15-38).  The loop advances cursor `i` on
`Ordering::Less`, accumulates and advances both on `Ordering::Equal`, and
advances `j` on `Ordering::Greater`.  The source guards the loop on the
`indices` lengths and panics if a `weights` vector is shorter; the model
stops instead, which agrees with the source whenever
`indices.length = weights.length` (the `SparseVector` invariant). -/
def dotLists : List Nat → List DimWeight → List Nat → List DimWeight → ℚ
  | i :: is, w :: ws, j :: js, v :: vs =>
    if i < j then dotLists is ws (j :: js) (v :: vs)
    else if i = j then w * v + dotLists is ws js vs
    else dotLists (i :: is) (w :: ws) js vs
  | _, _, _, _ => 0
termination_by is _ js _ => is.length + js.length

/-- `SparseVector::dot_product` (src/vector.rs). -/
def SparseVector.dot_product (a b : SparseVector) : ℚ :=
  dotLists a.indices a.weights b.indices b.weights

/-- src/sparse_index/posting.rs: `PostingElement { id, weight, max_next_weight }`.
`max_next_weight` is an `f32` that is `NEG_INFINITY` exactly when no later
element exists; it is modelled as `WithBot ℚ` with `⊥` standing for
`NEG_INFINITY`. -/
structure PostingElement where
  id : Nat
  weight : DimWeight
  max_next_weight : WithBot ℚ
deriving DecidableEq, Repr

/-- src/sparse_index/posting.rs: `PostingList { elements }`. -/
structure PostingList where
  elements : List PostingElement
deriving DecidableEq, Repr

/-- `PostingList::default()`: an empty placeholder posting list. -/
def PostingList.default : PostingList := ⟨[]⟩

/-- Stable insertion of `x` after every already-placed element `y` with
`le y x`; together with `insSortBy` this models Rust's stable sorts. -/
def insOrdered (le : α → α → Bool) (x : α) : List α → List α
  | [] => [x]
  | y :: ys => if le y x then y :: insOrdered le x ys else x :: y :: ys

/-- Stable insertion sort (left fold), modelling Rust's stable
`sort_by_key` / `sort_by`. -/
def insSortBy (le : α → α → Bool) (l : List α) : List α :=
  l.foldl (fun acc x => insOrdered le x acc) []

/-- The maximum weight of a list of posting elements, `⊥` when empty.
This is the value the right-to-left pass of `PostingBuilder::build`
assigns as `max_next_weight` of the element standing just before `l`. -/
def suffixWeightMax (l : List PostingElement) : WithBot ℚ :=
  l.foldr (fun e m => max (e.weight : WithBot ℚ) m) ⊥

/-- The right-to-left `max_next_weight` pass of `PostingBuilder::build`
(src/sparse_index/posting.rs lines 59-65), written front-to-back: each
element receives the maximum weight of the elements after it. -/
def setMaxNext : List PostingElement → List PostingElement
  | [] => []
  | e :: rest => { e with max_next_weight := suffixWeightMax rest } :: setMaxNext rest

/-- src/sparse_index/posting.rs: `PostingBuilder`. -/
structure PostingBuilder where
  elements : List PostingElement
deriving Repr

def PostingBuilder.new : PostingBuilder := ⟨[]⟩

/-- `PostingBuilder::add`: pushes `(id, weight, NEG_INFINITY)`. -/
def PostingBuilder.add (b : PostingBuilder) (id : Nat) (weight : DimWeight) :
    PostingBuilder :=
  ⟨b.elements ++ [⟨id, weight, ⊥⟩]⟩

/-- `PostingBuilder::add` for each pair of a list, left to right. -/
def PostingBuilder.addAll (b : PostingBuilder) (l : List (Nat × DimWeight)) :
    PostingBuilder :=
  l.foldl (fun acc p => acc.add p.1 p.2) b

/-- `PostingBuilder::build` (src/sparse_index/posting.rs lines 45-70):
stable sort by `id`, then the right-to-left `max_next_weight` pass.
The duplicate check of the source is debug-only (`#cfg(debug_assertions)`)
and does not change the produced list. -/
def PostingBuilder.build (b : PostingBuilder) : PostingList :=
  ⟨setMaxNext (insSortBy (fun x y => x.id ≤ y.id) b.elements)⟩

/-- `PostingList::from(records)`: build from a list of `(id, weight)` pairs. -/
def PostingList.from (records : List (Nat × DimWeight)) : PostingList :=
  (PostingBuilder.new.addAll records).build

/-- src/sparse_index/posting.rs: `PostingListIterator`, a borrowed posting
list together with `current_index`. -/
structure PostingListIterator where
  elements : List PostingElement
  current_index : Nat
deriving DecidableEq, Repr

def PostingListIterator.new (p : PostingList) : PostingListIterator :=
  ⟨p.elements, 0⟩

/-- `PostingListIterator::peek`. -/
def PostingListIterator.peek (it : PostingListIterator) : Option PostingElement :=
  it.elements[it.current_index]?

/-- `PostingListIterator::next`: the state change (cursor + 1 when an
element remains); the returned element is `peek`. -/
def PostingListIterator.advance (it : PostingListIterator) : PostingListIterator :=
  if it.current_index < it.elements.length then
    { it with current_index := it.current_index + 1 }
  else it

/-- `PostingListIterator::len_left`. -/
def PostingListIterator.len_left (it : PostingListIterator) : Nat :=
  it.elements.length - it.current_index

/-- `PostingListIterator::skip_to` (src/sparse_index/posting.rs lines
110-129).  `binary_search_by` on the remainder slice is modelled by its
specified result on a sorted slice: `Ok k` with `rem[k].id = id` when the
id occurs, otherwise `Err` of the insertion point (the number of remainder
elements with a smaller id).  Returns the found element (if any) and the
updated iterator. -/
def PostingListIterator.skip_to (it : PostingListIterator) (id : Nat) :
    Option PostingElement × PostingListIterator :=
  if it.current_index ≥ it.elements.length then (none, it)
  else
    let rem := it.elements.drop it.current_index
    let ins := rem.countP (fun e => e.id < id)
    match rem[ins]? with
    | some e =>
      if e.id = id then (some e, { it with current_index := it.current_index + ins })
      else (none, { it with current_index := it.current_index + ins })
    | none => (none, { it with current_index := it.current_index + ins })

/-- `PostingListIterator::skip_to_end`. -/
def PostingListIterator.skip_to_end (it : PostingListIterator) : PostingListIterator :=
  { it with current_index := it.elements.length }

example : PostingList.from [(2, 21), (1, 10)] =
    ⟨[⟨1, 10, (21 : ℚ)⟩, ⟨2, 21, ⊥⟩]⟩ := by decide

/-- src/sparse_index/search_context.rs: `ScoredCandidate { score, vector_id }`.
Its `Ord` instance compares by `score` only (through `OrderedFloat`). -/
structure ScoredCandidate where
  score : ℚ
  vector_id : Nat
deriving DecidableEq, Repr

/-- The minimum score held by the queue (`FixedLengthPriorityQueue::top`
exposes an element with this score). -/
def queueMinScore (q : List ScoredCandidate) : Option ℚ :=
  q.foldr (fun c m => match m with
    | none => some c.score
    | some s => some (min c.score s)) none

/-- Replace the first queue entry carrying score `s` by `v`. -/
def replaceFirstWithScore (s : ℚ) (v : ScoredCandidate) :
    List ScoredCandidate → List ScoredCandidate
  | [] => []
  | c :: cs => if c.score = s then v :: cs else c :: replaceFirstWithScore s v cs

/-- `FixedLengthPriorityQueue::push` (src/sparse_index/common/fixed_length_pq.rs
lines 28-40): below capacity the value is inserted; at capacity the value
replaces a minimum-score element exactly when its score is strictly larger
(`ScoredCandidate`'s `Ord` compares scores only).  The binary heap's internal
arrangement — which of several tied minimum elements is evicted — is not
specified by the source; the model evicts the first one held.  The multiset
of scores held by the queue is exactly that of the source. -/
def queuePush (top : Nat) (q : List ScoredCandidate) (v : ScoredCandidate) :
    List ScoredCandidate :=
  if q.length < top then q ++ [v]
  else match queueMinScore q with
    | none => q
    | some m => if m < v.score then replaceFirstWithScore m v q else q

/-- `FixedLengthPriorityQueue::into_vec`: all elements ordered by score
descending; the source leaves the order among tied scores unspecified, the
model keeps them stably. -/
def queueIntoVec (q : List ScoredCandidate) : List ScoredCandidate :=
  insSortBy (fun a b => b.score ≤ a.score) q

/-- src/sparse_index/inverted_index.rs: `InvertedIndex { postings }`. -/
structure InvertedIndex where
  postings : List PostingList
deriving DecidableEq, Repr

/-- `InvertedIndex::get`: direct indexing (`postings.get(id)`). -/
def InvertedIndex.get (idx : InvertedIndex) (id : Nat) : Option PostingList :=
  idx.postings[id]?

/-- Insert-or-replace on an association list, modelling `HashMap::insert`
(keys stay pairwise distinct). -/
def assocInsert (k : Nat) (v : α) : List (Nat × α) → List (Nat × α)
  | [] => [(k, v)]
  | (k1, v1) :: rest =>
    if k1 = k then (k, v) :: rest else (k1, v1) :: assocInsert k v rest

/-- `HashMap::get` on the association-list model. -/
def assocGet (l : List (Nat × α)) (k : Nat) : Option α :=
  (l.find? (fun p => decide (p.1 = k))).map Prod.snd

/-- Rust `Vec::insert(n, a)`: insert at position `n`, shifting the suffix.
(The source only calls it with `n ≤ len`; out of range the model appends
where Rust would panic.) -/
def vecInsert (n : Nat) (a : α) (l : List α) : List α :=
  match n, l with
  | 0, l => a :: l
  | _ + 1, [] => [a]
  | n + 1, x :: xs => x :: vecInsert n a xs

/-- src/sparse_index/inverted_index.rs: `InvertedIndexBuilder`, a
`HashMap<u32, PostingList>` modelled as an association list with distinct
keys.  (`HashMap` iteration order is irrelevant: `build` sorts the keys.) -/
structure InvertedIndexBuilder where
  postings : List (Nat × PostingList)

def InvertedIndexBuilder.new : InvertedIndexBuilder := ⟨[]⟩

def InvertedIndexBuilder.add (b : InvertedIndexBuilder) (id : Nat)
    (posting : PostingList) : InvertedIndexBuilder :=
  ⟨assocInsert id posting b.postings⟩

/-- The sorted list of keys held by the builder. -/
def InvertedIndexBuilder.sortedKeys (b : InvertedIndexBuilder) : List Nat :=
  insSortBy (fun a b => decide (a ≤ b)) (b.postings.map Prod.fst)

/-- `InvertedIndexBuilder::build` (src/sparse_index/inverted_index.rs lines
32-51): sorts the keys, allocates `last_key` (not `last_key + 1`) empty
placeholder lists, then moves each posting in with `Vec::insert` — which
shifts the remaining placeholders right. -/
def InvertedIndexBuilder.build (b : InvertedIndexBuilder) : InvertedIndex :=
  let keys := b.sortedKeys
  let last_key := keys.getLast?.getD 0
  let start : List PostingList := List.replicate last_key PostingList.default
  ⟨keys.foldl
    (fun acc k => vecInsert k ((assocGet b.postings k).getD PostingList.default) acc)
    start⟩

/-- src/sparse_index/immutable/inverted_index/inverted_index_ram.rs:
`InvertedIndexRam { postings }`. -/
structure InvertedIndexRam where
  postings : List PostingList
deriving DecidableEq, Repr

/-- `InvertedIndexRam::get`: direct indexing. -/
def InvertedIndexRam.get (idx : InvertedIndexRam) (id : Nat) : Option PostingList :=
  idx.postings[id]?

/-- The builder of inverted_index_ram.rs (same `HashMap` staging as the
older builder, different `build`). -/
structure InvertedIndexRamBuilder where
  postings : List (Nat × PostingList)

def InvertedIndexRamBuilder.new : InvertedIndexRamBuilder := ⟨[]⟩

def InvertedIndexRamBuilder.add (b : InvertedIndexRamBuilder) (id : Nat)
    (posting : PostingList) : InvertedIndexRamBuilder :=
  ⟨assocInsert id posting b.postings⟩

def InvertedIndexRamBuilder.sortedKeys (b : InvertedIndexRamBuilder) : List Nat :=
  insSortBy (fun a b => decide (a ≤ b)) (b.postings.map Prod.fst)

/-- `InvertedIndexBuilder::build` of inverted_index_ram.rs (lines 32-47):
allocates `last_key + 1` empty placeholder lists and assigns each posting
at its key (`postings[key] = ...`). -/
def InvertedIndexRamBuilder.build (b : InvertedIndexRamBuilder) : InvertedIndexRam :=
  let keys := b.sortedKeys
  let last_key := keys.getLast?.getD 0
  let start : List PostingList := List.replicate (last_key + 1) PostingList.default
  ⟨keys.foldl
    (fun acc k => acc.set k ((assocGet b.postings k).getD PostingList.default))
    start⟩

/-- src/sparse_index/search_context.rs: `IndexedPostingListIterator`. -/
structure IndexedPostingListIterator where
  posting_list_iterator : PostingListIterator
  query_weight_offset : Nat
deriving DecidableEq, Repr

/-- src/sparse_index/search_context.rs: `SearchContext`. -/
structure SearchContext where
  postings_iterators : List IndexedPostingListIterator
  query : SparseVector
  top : Nat
  result_queue : List ScoredCandidate
deriving DecidableEq, Repr

/-- `SearchContext::sort_posting_lists_by_len`: stable ascending sort by
`len_left` followed by `reverse` (exactly the source's two steps). -/
def SearchContext.sort_posting_lists_by_len (s : SearchContext) : SearchContext :=
  { s with postings_iterators :=
      (insSortBy
        (fun a b => a.posting_list_iterator.len_left ≤ b.posting_list_iterator.len_left)
        s.postings_iterators).reverse }

/-- `SearchContext::new` (src/sparse_index/search_context.rs lines 44-66):
collect an iterator for every query dimension present in the index (empty
placeholder posting lists included — `get` returns `Some` for them), then
sort by `len_left` descending.  `FixedLengthPriorityQueue::new(top)` asserts
`top > 0`; the model leaves the assertion to the claims. -/
def SearchContext.new (query : SparseVector) (top : Nat) (idx : InvertedIndex) :
    SearchContext :=
  let its := query.indices.enum.foldl
    (fun acc p => match idx.get p.2 with
      | some posting =>
        acc ++ [⟨PostingListIterator.new posting, p.1⟩]
      | none => acc) []
  SearchContext.sort_posting_lists_by_len
    { postings_iterators := its, query := query, top := top, result_queue := [] }

/-- `SearchContext::advance` (src/sparse_index/search_context.rs lines
98-134).  First pass: minimum peeked id, starting from `u32::MAX`; absent
when no iterator can peek.  Second pass: every iterator whose head carries
the minimum id contributes `weight * query.weights[offset]` and is advanced.
Returns the candidate and the updated context. -/
def SearchContext.advance (s : SearchContext) :
    Option ScoredCandidate × SearchContext :=
  let minId := s.postings_iterators.foldl
    (fun m it => match it.posting_list_iterator.peek with
      | some e => min m e.id
      | none => m) u32MAX
  let found := s.postings_iterators.any
    (fun it => it.posting_list_iterator.peek.isSome)
  if !found then (none, s)
  else
    let score := s.postings_iterators.foldl
      (fun sc it => match it.posting_list_iterator.peek with
        | some e =>
          if e.id = minId then
            sc + e.weight * s.query.weights.getD it.query_weight_offset 0
          else sc
        | none => sc) 0
    let its := s.postings_iterators.map
      (fun it => match it.posting_list_iterator.peek with
        | some e =>
          if e.id = minId then
            { it with posting_list_iterator := it.posting_list_iterator.advance }
          else it
        | none => it)
    (some ⟨score, minId⟩, { s with postings_iterators := its })

/-- `SearchContext::prune_longest_posting_list` (src/sparse_index/
search_context.rs lines 168-192).  The skip target is `u32::MAX` when only
one iterator exists, otherwise the peeked id of the iterator at position 1
(`u32::MAX` when it is exhausted).  The head iterator is skipped when
`max(weight, max_next_weight) * query_weight < min_score`.  (The source
indexes `postings_iterators[0]`/`[1]` unconditionally; `search` only calls
this after a successful `advance`, so at least one iterator exists — on an
empty list the model is the identity.) -/
def SearchContext.prune_longest_posting_list (s : SearchContext) (min_score : ℚ) :
    SearchContext :=
  let skipTarget :=
    if s.postings_iterators.length = 1 then u32MAX
    else match s.postings_iterators[1]? with
      | some it2 => match it2.posting_list_iterator.peek with
        | some e => e.id
        | none => u32MAX
      | none => u32MAX
  match s.postings_iterators with
  | [] => s
  | it0 :: rest =>
    match it0.posting_list_iterator.peek with
    | none => s
    | some e =>
      let max_weight_from_list : ℚ :=
        match e.max_next_weight with
        | none => e.weight
        | some m => max e.weight m
      let score_contribution :=
        max_weight_from_list * s.query.weights.getD it0.query_weight_offset 0
      if score_contribution < min_score then
        { s with postings_iterators :=
            { it0 with posting_list_iterator :=
                (it0.posting_list_iterator.skip_to skipTarget).2 } :: rest }
      else s

/-- Total number of unconsumed posting elements; the fuel measure of the
search loop (each successful `advance` consumes at least one element). -/
def SearchContext.totalRemaining (s : SearchContext) : Nat :=
  (s.postings_iterators.map (fun it => it.posting_list_iterator.len_left)).sum

/-- One iteration of the `loop` of `SearchContext::search`
(src/sparse_index/search_context.rs lines 146-161): advance, push into the
queue, and — when the queue holds `top` elements — prune with the queue's
minimum score.  `none` when `advance` returned `None` (the loop breaks;
`advance` does not change the state in that case).  With `doPrune := false`
the pruning step is disabled (the modification quantified over by the
pruning-safety claim). -/
def searchStep (doPrune : Bool) (s : SearchContext) : Option SearchContext :=
  match s.advance with
  | (none, _) => none
  | (some candidate, s1) =>
    let s2 := { s1 with result_queue := queuePush s1.top s1.result_queue candidate }
    let s3 :=
      if doPrune ∧ s2.result_queue.length = s2.top then
        match queueMinScore s2.result_queue with
        | some m => s2.prune_longest_posting_list m
        | none => s2
      else s2
    some s3

/-- The `loop` of `SearchContext::search`, fuel-indexed iteration of
`searchStep`. -/
def searchLoop (doPrune : Bool) : SearchContext → Nat → SearchContext
  | s, 0 => s
  | s, fuel + 1 =>
    match searchStep doPrune s with
    | none => s
    | some s3 => searchLoop doPrune s3 fuel

/-- `SearchContext::search`: sort by length, run the loop, drain the queue
descending by score.  The fuel `totalRemaining + 1` is sufficient: every
successful `advance` consumes at least one posting element (for u32 record
ids), so the source loop performs at most `totalRemaining` pushes before
`advance` returns `None`. -/
def SearchContext.search (s : SearchContext) : List ScoredCandidate :=
  let s0 := s.sort_posting_lists_by_len
  queueIntoVec (searchLoop true s0 (s0.totalRemaining + 1)).result_queue

/-- `SearchContext::search` with the pruning step disabled — the
counterfactual program of the pruning-safety claim. -/
def SearchContext.searchWithoutPruning (s : SearchContext) : List ScoredCandidate :=
  let s0 := s.sort_posting_lists_by_len
  queueIntoVec (searchLoop false s0 (s0.totalRemaining + 1)).result_queue

/-- The inverted index of the source's `advance_basic_test` and `search`
tests (Scenario A of the spec). -/
def scenarioAIndex : InvertedIndex :=
  (((InvertedIndexBuilder.new.add 1
      (PostingList.from [(1, 10), (2, 20), (3, 30)])).add 2
      (PostingList.from [(1, 10), (2, 20), (3, 30)])).add 3
      (PostingList.from [(1, 10), (2, 20), (3, 30)])).build

example :
    (SearchContext.new ⟨[1, 2, 3], [1, 1, 1]⟩ 10 scenarioAIndex).search =
      [⟨90, 3⟩, ⟨60, 2⟩, ⟨30, 1⟩] := of_decide_eq_true (by with_unfolding_all rfl)

/-- The unbalanced index of the source's `search_with_non_balanced` test
(Scenario B of the spec). -/
def scenarioBIndex : InvertedIndex :=
  (((InvertedIndexBuilder.new.add 1
      (PostingList.from [(1, 10), (2, 20), (3, 30), (4, 1), (5, 2), (6, 3),
        (7, 4), (8, 5), (9, 6)])).add 2
      (PostingList.from [(1, 10), (2, 20), (3, 30)])).add 3
      (PostingList.from [(1, 10), (2, 20), (3, 30)])).build

example :
    (SearchContext.new ⟨[1, 2, 3], [1, 1, 1]⟩ 3 scenarioBIndex).search =
      [⟨90, 3⟩, ⟨60, 2⟩, ⟨30, 1⟩] := of_decide_eq_true (by with_unfolding_all rfl)

example :
    (SearchContext.new ⟨[1, 2, 3], [1, 1, 1]⟩ 4 scenarioBIndex).search =
      [⟨90, 3⟩, ⟨60, 2⟩, ⟨30, 1⟩, ⟨6, 9⟩] := of_decide_eq_true (by with_unfolding_all rfl)

/-- `entry(k).or_insert(Vec::new()).push(rid)` on the association-list model
of `HashMap<Nat, Vec<Nat>>`. -/
def assocPush (k : Nat) (rid : Nat) :
    List (Nat × List Nat) → List (Nat × List Nat)
  | [] => [(k, [rid])]
  | (k1, l) :: rest =>
    if k1 = k then (k1, l ++ [rid]) :: rest else (k1, l) :: assocPush k rid rest

/-- src/mutable_index.rs: `MutableSparseVectorIndex::add` — append the
record id to the posting of every dimension of the vector. -/
def mutableIndexAdd (m : List (Nat × List Nat)) (vector_id : Nat)
    (v : SparseVector) : List (Nat × List Nat) :=
  v.indices.foldl (fun acc index => assocPush index vector_id acc) m

/-- src/storage.rs: `SparseVectorStorage`. -/
structure SparseVectorStorage where
  vectors : List (Option SparseVector)
  mutable_index : List (Nat × List Nat)
  immutable_index : Option InvertedIndex
deriving DecidableEq, Repr

/-- `SparseVectorStorage::new`. -/
def SparseVectorStorage.new : SparseVectorStorage := ⟨[], [], none⟩

/-- `SparseVectorStorage::add` (src/storage.rs lines 60-71).  The source
updates the mutable index, then panics when `vectors.get_mut(vector_id)`
is `Some` — which happens exactly when `vector_id < vectors.len()`, whether
or not the slot holds a vector; otherwise it resizes with `None` fillers up
to `vector_id + 1` and stores the vector there.  The panic is modelled as
`Except.error`. -/
def SparseVectorStorage.add (s : SparseVectorStorage) (vector_id : Nat)
    (v : SparseVector) : Except String SparseVectorStorage :=
  let m := mutableIndexAdd s.mutable_index vector_id v
  if vector_id < s.vectors.length then Except.error "vector already exists"
  else Except.ok
    { vectors := s.vectors ++ List.replicate (vector_id - s.vectors.length) none
        ++ [some v]
      mutable_index := m
      immutable_index := s.immutable_index }

/-- `SparseVectorStorage::add` folded over a list of `(id, vector)` pairs. -/
def SparseVectorStorage.addAll (s : SparseVectorStorage)
    (l : List (Nat × SparseVector)) : Except String SparseVectorStorage :=
  l.foldlM (fun acc p => acc.add p.1 p.2) s

/-- `SparseVectorStorage::get` (src/storage.rs lines 94-99): returns the
`Option<SparseVector>` slot; the out-of-bounds panic is modelled by the
outer `Option`. -/
def SparseVectorStorage.get (s : SparseVectorStorage) (vector_id : Nat) :
    Option (Option SparseVector) :=
  s.vectors[vector_id]?

/-- The posting builder filled for one dimension by
`SparseVectorStorage::build_immutable_index` (src/storage.rs lines 77-87):
for each record id the stored vector is loaded, the dimension located in
its `indices`, and `(rid, weight)` emitted; missing vectors or dimensions
panic in the source (`None` here). -/
def buildPostingForDim (s : SparseVectorStorage) (position : Nat)
    (rids : List Nat) : Option PostingBuilder :=
  rids.foldlM (fun (pb : PostingBuilder) rid => do
    let ov ← s.vectors[rid]?
    let v ← ov
    let offset ← v.indices.findIdx? (fun x => decide (x = position))
    let weight ← v.weights[offset]?
    pure (pb.add rid weight)) PostingBuilder.new

/-- `SparseVectorStorage::build_immutable_index` (src/storage.rs lines
74-91): one posting list per mutable-index dimension, collected through
`InvertedIndexBuilder` (`HashMap` iteration order is irrelevant because
`build` sorts the keys). -/
def SparseVectorStorage.build_immutable_index (s : SparseVectorStorage) :
    Option SparseVectorStorage := do
  let b ← s.mutable_index.foldlM
    (fun (bld : InvertedIndexBuilder) p => do
      let pb ← buildPostingForDim s p.1 p.2
      pure (bld.add p.1 pb.build)) InvertedIndexBuilder.new
  pure { s with immutable_index := some b.build }

/-- `SparseVectorStorage::query_full_scan` (src/storage.rs lines 101-125):
score every stored vector by dot product, stable-sort descending by score,
take `limit`. -/
def SparseVectorStorage.query_full_scan (s : SparseVectorStorage) (limit : Nat)
    (q : SparseVector) : List ScoredCandidate :=
  let scored := s.vectors.enum.filterMap
    (fun p => p.2.map (fun v => ScoredCandidate.mk (q.dot_product v) p.1))
  (insSortBy (fun a b => decide (b.score ≤ a.score)) scored).take limit

/-- Rust `Vec::dedup`: drop consecutive duplicates. -/
def dedupConsec : List Nat → List Nat
  | [] => []
  | [a] => [a]
  | a :: b :: rest =>
    if a = b then dedupConsec (b :: rest) else a :: dedupConsec (b :: rest)

/-- `SparseVectorStorage::query_mutable_index` (src/storage.rs lines
127-159): gather the candidate record ids from the postings of the query
dimensions, sort and dedup them, score each by dot product (panicking —
`None` — if a candidate has no stored vector), stable-sort descending by
score, take `top`. -/
def SparseVectorStorage.query_mutable_index (s : SparseVectorStorage) (top : Nat)
    (q : SparseVector) : Option (List ScoredCandidate) := do
  let candidates := q.indices.foldl
    (fun acc index => match assocGet s.mutable_index index with
      | some posting => acc ++ posting
      | none => acc) []
  let deduped := dedupConsec (insSortBy (fun a b : Nat => decide (a ≤ b)) candidates)
  let scored ← deduped.mapM (fun rid => do
    let ov ← s.vectors[rid]?
    let v ← ov
    pure (ScoredCandidate.mk (q.dot_product v) rid))
  pure ((insSortBy (fun a b => decide (b.score ≤ a.score)) scored).take top)

/-- `SparseVectorStorage::query_immutable_index` (src/storage.rs lines
161-169): unwrap the immutable index (`None` models the unwrap panic) and
run `SearchContext::search`. -/
def SparseVectorStorage.query_immutable_index (s : SparseVectorStorage) (top : Nat)
    (q : SparseVector) : Option (List ScoredCandidate) :=
  s.immutable_index.map (fun idx => (SearchContext.new q top idx).search)

/-- One byte of the mmap file
(src/sparse_index/immutable/inverted_index/inverted_index_mmap.rs).
Bit-level float layout is abstracted: a byte is tagged with the value whose
serialized form it belongs to and its position within that form, so that
`transmute` round-trips exactly and reading bytes as the wrong type is
detectable (garbage / UB in the source). -/
inductive MByte where
  | u32frag (v : Nat) (k : Fin 4)
  | u64frag (v : Nat) (k : Fin 8)
  | f32frag (w : WithBot ℚ) (k : Fin 4)
deriving DecidableEq, Repr

/-- The 4 bytes of a `u32`. -/
def encodeU32 (v : Nat) : List MByte := (List.finRange 4).map (MByte.u32frag v)

/-- The 8 bytes of a `u64`. -/
def encodeU64 (v : Nat) : List MByte := (List.finRange 8).map (MByte.u64frag v)

/-- The 4 bytes of an `f32` (`⊥` = `NEG_INFINITY`). -/
def encodeF32 (w : WithBot ℚ) : List MByte := (List.finRange 4).map (MByte.f32frag w)

/-- Reading 4 bytes back as a `u32` (`transmute`): succeeds exactly on a
serialized `u32`. -/
def decodeU32 (bs : List MByte) : Option Nat :=
  match bs with
  | MByte.u32frag v _ :: _ => if bs = encodeU32 v then some v else none
  | _ => none

/-- Reading 8 bytes back as a `u64`. -/
def decodeU64 (bs : List MByte) : Option Nat :=
  match bs with
  | MByte.u64frag v _ :: _ => if bs = encodeU64 v then some v else none
  | _ => none

/-- Reading 4 bytes back as an `f32`. -/
def decodeF32 (bs : List MByte) : Option (WithBot ℚ) :=
  match bs with
  | MByte.f32frag w _ :: _ => if bs = encodeF32 w then some w else none
  | _ => none

/-- inverted_index_mmap.rs: `PostingListFileHeader { start_offset, end_offset }`
(two `u64` file-absolute byte offsets; `POSTING_HEADER_SIZE = 16`). -/
structure PostingListFileHeader where
  start_offset : Nat
  end_offset : Nat
deriving DecidableEq, Repr

/-- The 16 bytes of a `PostingListFileHeader`. -/
def encodeHeader (h : PostingListFileHeader) : List MByte :=
  encodeU64 h.start_offset ++ encodeU64 h.end_offset

/-- `transmute_from_u8::<PostingListFileHeader>` on a 16-byte slice. -/
def decodeHeader (bs : List MByte) : Option PostingListFileHeader := do
  let s ← decodeU64 (bs.take 8)
  let e ← decodeU64 (bs.drop 8)
  pure ⟨s, e⟩

/-- The 12 bytes of a `PostingElement` (`u32` id, `f32` weight, `f32`
max_next_weight). -/
def encodeElement (e : PostingElement) : List MByte :=
  encodeU32 e.id ++ encodeF32 (e.weight : WithBot ℚ) ++ encodeF32 e.max_next_weight

/-- Reading 12 bytes back as a `PostingElement`. -/
def decodeElement (bs : List MByte) : Option PostingElement := do
  let id ← decodeU32 (bs.take 4)
  let w ← decodeF32 ((bs.drop 4).take 4)
  let mnw ← decodeF32 (bs.drop 8)
  match w with
  | some wq => pure ⟨id, wq, mnw⟩
  | none => none

/-- `transmute_from_u8_to_slice::<PostingElement>`: reinterpret a byte
slice as consecutive 12-byte posting elements. -/
def decodeElements (bs : List MByte) : Option (List PostingElement) :=
  if _ : bs = [] then some []
  else
    match decodeElement (bs.take 12) with
    | none => none
    | some e =>
      match decodeElements (bs.drop 12) with
      | none => none
      | some rest => some (e :: rest)
termination_by bs.length
decreasing_by
  simp only [List.length_drop]
  have : bs.length ≠ 0 := by simpa [List.length_eq_zero] using ‹¬bs = []›
  omega

/-- `InvertedIndexMmap::save_posting_headers` (inverted_index_mmap.rs lines
118-138): one 16-byte header per posting list, with running element-region
offsets starting at `total_posting_headers_size`. -/
def savePostingHeaders : List PostingList → Nat → List MByte
  | [], _ => []
  | p :: rest, offset =>
    encodeHeader ⟨offset, offset + 12 * p.elements.length⟩ ++
      savePostingHeaders rest (offset + 12 * p.elements.length)

/-- `InvertedIndexMmap::save_posting_elements` (lines 140-153): the posting
lists' element bytes concatenated in order. -/
def savePostingElements (postings : List PostingList) : List MByte :=
  (postings.map (fun p => (p.elements.map encodeElement).flatten)).flatten

/-- The full `index.data` contents written by `convert_and_save`:
`N` headers (16 bytes each) followed by all posting elements (12 bytes
each); the file is sized to exactly `N*16 + M*12`. -/
def mmapFileBytes (ram : InvertedIndexRam) : List MByte :=
  savePostingHeaders ram.postings (16 * ram.postings.length) ++
    savePostingElements ram.postings

/-- The on-disk artifact: `index.data` plus the `index_config.json` sidecar
holding `posting_count`. -/
structure SavedMmapIndex where
  data : List MByte
  config_posting_count : Nat
deriving DecidableEq, Repr

/-- inverted_index_mmap.rs: `InvertedIndexMmap { mmap, file_header }`. -/
structure InvertedIndexMmap where
  mmap : List MByte
  posting_count : Nat
deriving DecidableEq, Repr

/-- `InvertedIndexMmap::convert_and_save` (lines 61-89): write the data
file and the sidecar (`posting_count = postings.len()`), returning the
mapped index.  I/O errors are outside the model. -/
def InvertedIndexMmap.convert_and_save (ram : InvertedIndexRam) : SavedMmapIndex :=
  ⟨mmapFileBytes ram, ram.postings.length⟩

/-- `InvertedIndexMmap::load` (lines 91-103): map the data file and read
`posting_count` from the sidecar. -/
def InvertedIndexMmap.load (saved : SavedMmapIndex) : InvertedIndexMmap :=
  ⟨saved.data, saved.config_posting_count⟩

/-- Result of `InvertedIndexMmap::get`: `absent` models the `None` return;
`invalidRead` models reading bytes that are not a valid value of the
expected type (garbage transmute or slice panic in the source). -/
inductive MmapGetResult where
  | absent
  | elements (els : List PostingElement)
  | invalidRead
deriving DecidableEq, Repr

/-- `InvertedIndexMmap::get` (lines 47-59).  Note the source's bound check
is `id > posting_count` — not `≥` — so `id = posting_count` proceeds to
read a "header" at byte `posting_count * 16`, which lies past the header
table. -/
def InvertedIndexMmap.get (idx : InvertedIndexMmap) (id : Nat) : MmapGetResult :=
  if id > idx.posting_count then .absent
  else
    match decodeHeader ((idx.mmap.drop (id * 16)).take 16) with
    | none => .invalidRead
    | some h =>
      match decodeElements
        ((idx.mmap.drop h.start_offset).take (h.end_offset - h.start_offset)) with
      | none => .invalidRead
      | some els => .elements els

/-! ### Generic lemmas about the stable insertion sort -/

theorem insOrdered_perm (le : α → α → Bool) (x : α) (l : List α) :
    List.Perm (insOrdered le x l) (x :: l) := by
  induction l with
  | nil => simp [insOrdered]
  | cons y ys ih =>
    simp only [insOrdered]
    by_cases h : le y x = true
    · simp only [h, if_true]
      exact List.Perm.trans (List.Perm.cons y ih) (List.Perm.swap x y ys)
    · simp [h]

theorem insSortBy_perm (le : α → α → Bool) (l : List α) :
    List.Perm (insSortBy le l) l := by
  suffices h : ∀ acc : List α,
      List.Perm (l.foldl (fun acc x => insOrdered le x acc) acc) (acc ++ l) by
    simpa using h []
  induction l with
  | nil => simp
  | cons x xs ih =>
    intro acc
    simp only [List.foldl_cons]
    refine (ih (insOrdered le x acc)).trans ?_
    have h1 : List.Perm (insOrdered le x acc ++ xs) (x :: (acc ++ xs)) :=
      List.Perm.append_right xs (insOrdered_perm le x acc)
    have h2 : List.Perm (x :: (acc ++ xs)) (acc ++ x :: xs) := List.perm_middle.symm
    exact h1.trans h2

theorem insOrdered_pairwise (le : α → α → Bool)
    (htot : ∀ a b, le a b = false → le b a = true)
    (htrans : ∀ a b c, le a b = true → le b c = true → le a c = true)
    (x : α) (l : List α) (h : l.Pairwise (fun a b => le a b = true)) :
    (insOrdered le x l).Pairwise (fun a b => le a b = true) := by
  induction l with
  | nil => simp [insOrdered]
  | cons y ys ih =>
    rcases h with _ | ⟨hy, hys⟩
    simp only [insOrdered]
    by_cases hle : le y x = true
    · simp only [hle, if_true]
      refine List.Pairwise.cons ?_ (ih hys)
      intro z hz
      have hz2 := (insOrdered_perm le x ys).mem_iff.mp hz
      rcases List.mem_cons.mp hz2 with rfl | hz3
      · exact hle
      · exact hy z hz3
    · have hxy : le x y = true := htot y x (Bool.eq_false_iff.mpr hle)
      simp only [hle, if_false]
      refine List.Pairwise.cons ?_ (List.Pairwise.cons hy hys)
      intro z hz
      rcases List.mem_cons.mp hz with rfl | hz2
      · exact hxy
      · exact htrans x y z hxy (hy z hz2)

theorem insSortBy_pairwise (le : α → α → Bool)
    (htot : ∀ a b, le a b = false → le b a = true)
    (htrans : ∀ a b c, le a b = true → le b c = true → le a c = true)
    (l : List α) :
    (insSortBy le l).Pairwise (fun a b => le a b = true) := by
  suffices h : ∀ acc : List α, acc.Pairwise (fun a b => le a b = true) →
      (l.foldl (fun acc x => insOrdered le x acc) acc).Pairwise
        (fun a b => le a b = true) by
    exact h [] (by simp)
  induction l with
  | nil => intro acc hacc; simpa using hacc
  | cons x xs ih =>
    intro acc hacc
    exact ih _ (insOrdered_pairwise le htot htrans x acc hacc)

/-! ### C10: commutativity of the dot product -/

theorem dotLists_zero_of_nil (A : List Nat) (W : List DimWeight)
    (B : List Nat) (V : List DimWeight)
    (h : A = [] ∨ W = [] ∨ B = [] ∨ V = []) :
    dotLists A W B V = 0 := by
  rcases A with _ | ⟨i, is⟩ <;> rcases W with _ | ⟨w, ws⟩ <;>
    rcases B with _ | ⟨j, js⟩ <;> rcases V with _ | ⟨v, vs⟩ <;>
    simp_all [dotLists]

theorem dotLists_comm :
    ∀ (A : List Nat) (W : List DimWeight) (B : List Nat) (V : List DimWeight),
      dotLists A W B V = dotLists B V A W
  | i :: is, w :: ws, j :: js, v :: vs => by
    simp only [dotLists]
    rcases Nat.lt_trichotomy i j with h | h | h
    · have h1 : ¬ j < i := Nat.lt_asymm h
      have h2 : ¬ j = i := fun he => Nat.lt_irrefl i (he ▸ h)
      simp only [h, if_true, h1, if_false, h2]
      exact dotLists_comm is ws (j :: js) (v :: vs)
    · subst h
      simp only [Nat.lt_irrefl, if_false, if_true]
      rw [dotLists_comm is ws js vs, mul_comm]
    · have h1 : ¬ i < j := Nat.lt_asymm h
      have h2 : ¬ i = j := fun he => Nat.lt_irrefl j (he ▸ h)
      simp only [h, if_true, h1, if_false, h2]
      exact dotLists_comm (i :: is) (w :: ws) js vs
  | [], W, B, V => by
    rw [dotLists_zero_of_nil [] W B V (Or.inl rfl),
      dotLists_zero_of_nil B V [] W (Or.inr (Or.inr (Or.inl rfl)))]
  | i :: is, [], B, V => by
    rw [dotLists_zero_of_nil _ [] B V (Or.inr (Or.inl rfl)),
      dotLists_zero_of_nil B V _ [] (Or.inr (Or.inr (Or.inr rfl)))]
  | i :: is, w :: ws, [], V => by
    rw [dotLists_zero_of_nil _ _ [] V (Or.inr (Or.inr (Or.inl rfl))),
      dotLists_zero_of_nil [] V _ _ (Or.inl rfl)]
  | i :: is, w :: ws, j :: js, [] => by
    rw [dotLists_zero_of_nil _ _ _ [] (Or.inr (Or.inr (Or.inr rfl))),
      dotLists_zero_of_nil _ [] _ _ (Or.inr (Or.inl rfl))]
termination_by A _ B _ => A.length + B.length

/-- C10: for every two sparse vectors with strictly ascending indices and
equal-length `indices`/`weights`, `dot_product` is commutative (the model
computes exactly; the accumulation visits the shared dimensions in the same
ascending order in both calls). -/
theorem claim_C10_dot_product_comm (a b : SparseVector)
    (_ha : a.indices.Pairwise (· < ·)) (_hb : b.indices.Pairwise (· < ·))
    (_hla : a.indices.length = a.weights.length)
    (_hlb : b.indices.length = b.weights.length) :
    a.dot_product b = b.dot_product a :=
  dotLists_comm a.indices a.weights b.indices b.weights

/-- Witness for C10 at a concrete input. -/
theorem claim_C10_witness :
    ([1, 3] : List Nat).Pairwise (· < ·) ∧ ([2, 3, 4] : List Nat).Pairwise (· < ·) ∧
      (SparseVector.mk [1, 3] [5, 7]).dot_product (SparseVector.mk [2, 3, 4] [2, 4, 6])
        = (SparseVector.mk [2, 3, 4] [2, 4, 6]).dot_product (SparseVector.mk [1, 3] [5, 7]) :=
  ⟨by decide, by decide,
    claim_C10_dot_product_comm (SparseVector.mk [1, 3] [5, 7])
      (SparseVector.mk [2, 3, 4] [2, 4, 6]) (by decide) (by decide) rfl rfl⟩

/-! ### C5: posting builder — sorting and max_next_weight -/

theorem addAll_elements (b : PostingBuilder) (l : List (Nat × DimWeight)) :
    (b.addAll l).elements =
      b.elements ++ l.map (fun p => PostingElement.mk p.1 p.2 ⊥) := by
  induction l generalizing b with
  | nil => simp [PostingBuilder.addAll]
  | cons p ps ih =>
    simp only [PostingBuilder.addAll, List.foldl_cons] at *
    rw [ih (b.add p.1 p.2)]
    simp [PostingBuilder.add]

theorem setMaxNext_length (l : List PostingElement) :
    (setMaxNext l).length = l.length := by
  induction l with
  | nil => simp [setMaxNext]
  | cons e rest ih => simp [setMaxNext, ih]

theorem setMaxNext_map_id (l : List PostingElement) :
    (setMaxNext l).map (fun e => e.id) = l.map (fun e => e.id) := by
  induction l with
  | nil => simp [setMaxNext]
  | cons e rest ih => simp [setMaxNext, ih]

theorem setMaxNext_map_weight (l : List PostingElement) :
    (setMaxNext l).map (fun e => e.weight) = l.map (fun e => e.weight) := by
  induction l with
  | nil => simp [setMaxNext]
  | cons e rest ih => simp [setMaxNext, ih]

theorem suffixWeightMax_eq_maximum (l : List PostingElement) :
    suffixWeightMax l = (l.map (fun e => e.weight)).maximum := by
  induction l with
  | nil => simp [suffixWeightMax]
  | cons e rest ih =>
    simp only [suffixWeightMax, List.foldr_cons, List.map_cons, List.maximum_cons]
    rw [← ih]
    rfl

theorem suffixWeightMax_setMaxNext (l : List PostingElement) :
    suffixWeightMax (setMaxNext l) = suffixWeightMax l := by
  rw [suffixWeightMax_eq_maximum, suffixWeightMax_eq_maximum, setMaxNext_map_weight]

theorem setMaxNext_max_next_of_getElem (l : List PostingElement) :
    ∀ (i : Nat) (e : PostingElement), (setMaxNext l)[i]? = some e →
      e.max_next_weight = suffixWeightMax ((setMaxNext l).drop (i + 1)) := by
  induction l with
  | nil => intro i e he; simp [setMaxNext] at he
  | cons a rest ih =>
    intro i e he
    match i with
    | 0 =>
      simp only [setMaxNext, List.getElem?_cons_zero, Option.some_inj] at he
      subst he
      simpa [setMaxNext] using (suffixWeightMax_setMaxNext rest).symm
    | i + 1 =>
      simp only [setMaxNext, List.getElem?_cons_succ] at he
      simpa [setMaxNext] using ih i e he

/-- C5: for every input list with pairwise-distinct record ids,
`PostingBuilder::build` returns a posting list sorted strictly ascending by
id in which every element's `max_next_weight` is the maximum of the weights
of the elements after it (`⊥`, i.e. `NEG_INFINITY`, after the last). -/
theorem claim_C5_posting_builder_build (input : List (Nat × DimWeight))
    (hdist : (input.map Prod.fst).Nodup) :
    ((PostingBuilder.new.addAll input).build.elements.Pairwise
      (fun x y => x.id < y.id)) ∧
    (∀ (i : Nat) (e : PostingElement),
      (PostingBuilder.new.addAll input).build.elements[i]? = some e →
      e.max_next_weight =
        (((PostingBuilder.new.addAll input).build.elements.drop (i + 1)).map
          (fun e => e.weight)).maximum) := by
  have hel : (PostingBuilder.new.addAll input).elements =
      input.map (fun p => PostingElement.mk p.1 p.2 ⊥) := by
    rw [addAll_elements]; simp [PostingBuilder.new]
  set l0 := input.map (fun p => PostingElement.mk p.1 p.2 ⊥) with hl0
  set le := fun x y : PostingElement => decide (x.id ≤ y.id) with hle
  have hbuild : (PostingBuilder.new.addAll input).build.elements =
      setMaxNext (insSortBy le l0) := by
    simp [PostingBuilder.build, hel]
  set sorted := insSortBy le l0 with hsorted
  have hperm : List.Perm sorted l0 := insSortBy_perm le l0
  have hsort_le : sorted.Pairwise (fun a b => a.id ≤ b.id) := by
    have h := insSortBy_pairwise le
      (fun a b hf => by
        simp only [hle, decide_eq_false_iff_not, Nat.not_le] at hf
        simpa [hle] using Nat.le_of_lt hf)
      (fun a b c h1 h2 => by
        simp only [hle, decide_eq_true_eq] at h1 h2 ⊢
        exact Nat.le_trans h1 h2) l0
    exact h.imp (fun hab => by simpa [hle] using hab)
  have hids_nodup : (sorted.map (fun e => e.id)).Nodup := by
    have hperm2 : List.Perm (sorted.map (fun e => e.id)) (l0.map (fun e => e.id)) :=
      hperm.map _
    have : l0.map (fun e => e.id) = input.map Prod.fst := by
      simp [hl0, List.map_map, Function.comp]
    rw [hperm2.nodup_iff, this]
    exact hdist
  have hne : sorted.Pairwise (fun a b => a.id ≠ b.id) :=
    (List.pairwise_map.mp hids_nodup)
  have hsort_lt : sorted.Pairwise (fun a b => a.id < b.id) :=
    (hsort_le.and hne).imp (fun h => Nat.lt_of_le_of_ne h.1 h.2)
  constructor
  · rw [hbuild]
    have : ((setMaxNext sorted).map (fun e => e.id)).Pairwise (· < ·) := by
      rw [setMaxNext_map_id]
      exact List.pairwise_map.mpr hsort_lt
    exact List.pairwise_map.mp this
  · intro i e he
    rw [hbuild] at he ⊢
    rw [setMaxNext_max_next_of_getElem sorted i e he, suffixWeightMax_eq_maximum]

/-- Witness for C5 at a concrete input. -/
theorem claim_C5_witness :
    ((([(2, 21), (1, 10), (3, 5)] : List (Nat × DimWeight)).map Prod.fst).Nodup) ∧
    ((PostingBuilder.new.addAll [(2, 21), (1, 10), (3, 5)]).build.elements.Pairwise
      (fun x y => x.id < y.id)) ∧
    (∀ (i : Nat) (e : PostingElement),
      (PostingBuilder.new.addAll
        [(2, 21), (1, 10), (3, 5)]).build.elements[i]? = some e →
      e.max_next_weight =
        (((PostingBuilder.new.addAll
          [(2, 21), (1, 10), (3, 5)]).build.elements.drop (i + 1)).map
          (fun e => e.weight)).maximum) :=
  ⟨by decide,
    (claim_C5_posting_builder_build [(2, 21), (1, 10), (3, 5)] (by decide)).1,
    (claim_C5_posting_builder_build [(2, 21), (1, 10), (3, 5)] (by decide)).2⟩

/-! ### C6: skip_to semantics -/

/-- On a strictly id-sorted list, position `k` lies below
`countP (·.id < t)` exactly when the element there has id below `t`. -/
theorem sorted_pos_lt_countP (t : Nat) :
    ∀ (l : List PostingElement), l.Pairwise (fun a b => a.id < b.id) →
    ∀ (k : Nat) (e : PostingElement), l[k]? = some e →
      (k < l.countP (fun e => decide (e.id < t)) ↔ e.id < t) := by
  intro l hs
  induction l with
  | nil => intro k e he; simp at he
  | cons a rest ih =>
    rcases hs with _ | ⟨h1, h2⟩
    replace h1 : ∀ b ∈ rest, a.id < b.id := h1
    intro k e he
    have hcnt : (a :: rest).countP (fun e => decide (e.id < t)) =
        rest.countP (fun e => decide (e.id < t)) + (if a.id < t then 1 else 0) := by
      rw [List.countP_cons]
      by_cases hp : a.id < t
      · rw [if_pos hp, if_pos (by simpa using hp)]
      · rw [if_neg hp, if_neg (by simpa using hp)]
    have hzero : ¬ a.id < t → rest.countP (fun e => decide (e.id < t)) = 0 := by
      intro hp
      rw [List.countP_eq_zero]
      intro b hb
      have := h1 b hb
      simp only [decide_eq_true_eq]
      omega
    match k with
    | 0 =>
      have hae : a = e := by simpa using he
      rw [hcnt, ← hae]
      by_cases hp : a.id < t
      · rw [if_pos hp]
        exact ⟨fun _ => hp, fun _ => by omega⟩
      · rw [if_neg hp, hzero hp]
        exact ⟨fun h0 => absurd h0 (by omega), fun h0 => absurd h0 hp⟩
    | k + 1 =>
      rw [List.getElem?_cons_succ] at he
      have hiff := ih h2 k e he
      rw [hcnt]
      by_cases hp : a.id < t
      · rw [if_pos hp]
        exact ⟨fun h0 => hiff.mp (by omega), fun h0 => by have := hiff.mpr h0; omega⟩
      · rw [if_neg hp, hzero hp]
        have hmem : e ∈ rest := by
          obtain ⟨hh, rfl⟩ := List.getElem?_eq_some.mp he
          exact List.getElem_mem hh
        have h3 := h1 e hmem
        exact ⟨fun h0 => by omega, fun h0 => by omega⟩

/-- On a strictly id-sorted list, later positions carry larger ids. -/
theorem sorted_id_strict_mono (l : List PostingElement)
    (hs : l.Pairwise (fun a b => a.id < b.id)) (i j : Nat)
    (hij : i < j) (ei ej : PostingElement)
    (hi : l[i]? = some ei) (hj : l[j]? = some ej) : ei.id < ej.id := by
  obtain ⟨hi2, rfl⟩ := List.getElem?_eq_some.mp hi
  obtain ⟨hj2, rfl⟩ := List.getElem?_eq_some.mp hj
  exact List.pairwise_iff_get.mp hs ⟨i, hi2⟩ ⟨j, hj2⟩ hij

/-- The core of the skip_to specification, stated over the raw list and
cursor of the iterator. -/
theorem skip_to_spec_aux (l : List PostingElement) (c : Nat) (t : Nat)
    (hsort : l.Pairwise (fun a b => a.id < b.id)) (hc : c ≤ l.length) :
    c ≤ ((PostingListIterator.mk l c).skip_to t).2.current_index ∧
    ((PostingListIterator.mk l c).skip_to t).2.current_index ≤ l.length ∧
    ((PostingListIterator.mk l c).skip_to t).2.elements = l ∧
    (∀ e, ((PostingListIterator.mk l c).skip_to t).1 = some e →
      l[((PostingListIterator.mk l c).skip_to t).2.current_index]? = some e ∧
        e.id = t) ∧
    (((PostingListIterator.mk l c).skip_to t).1 = none →
      (∀ k e, c ≤ k → l[k]? = some e → e.id ≠ t) ∧
      (∀ k e, c ≤ k → k < ((PostingListIterator.mk l c).skip_to t).2.current_index →
        l[k]? = some e → e.id < t) ∧
      (∀ e, l[((PostingListIterator.mk l c).skip_to t).2.current_index]? = some e →
        t < e.id)) := by
  by_cases hend : l.length ≤ c
  · have hr : (PostingListIterator.mk l c).skip_to t = (none, PostingListIterator.mk l c) := by
      simp [PostingListIterator.skip_to, hend]
    rw [hr]
    dsimp only
    refine ⟨Nat.le_refl c, hc, rfl, by simp, fun _ => ⟨?_, ?_, ?_⟩⟩
    · intro k e hk he
      obtain ⟨hlt, _⟩ := List.getElem?_eq_some.mp he
      omega
    · intro k e hk hk2 he
      obtain ⟨hlt, _⟩ := List.getElem?_eq_some.mp he
      omega
    · intro e he
      obtain ⟨hlt, _⟩ := List.getElem?_eq_some.mp he
      omega
  · have hclt : c < l.length := by omega
    have hrg : ∀ (k : Nat), (l.drop c)[k]? = l[c + k]? := fun k =>
      List.getElem?_drop l c k
    have hremsort : (l.drop c).Pairwise (fun a b => a.id < b.id) :=
      List.Pairwise.sublist (List.drop_sublist c l) hsort
    have hiff : ∀ (k : Nat) (e : PostingElement), (l.drop c)[k]? = some e →
        (k < (l.drop c).countP (fun e => decide (e.id < t)) ↔ e.id < t) :=
      sorted_pos_lt_countP t (l.drop c) hremsort
    set ins := (l.drop c).countP (fun e => decide (e.id < t)) with hins
    have hins_le : ins ≤ (l.drop c).length := List.countP_le_length _
    have hrlen : (l.drop c).length = l.length - c := List.length_drop c l
    have hbelow : ∀ k e, c ≤ k → k < c + ins → l[k]? = some e → e.id < t := by
      intro k e hk1 hk2 he
      have hre2 : (l.drop c)[k - c]? = some e := by
        rw [hrg (k - c)]
        have heq : c + (k - c) = k := by omega
        rw [heq]; exact he
      exact (hiff (k - c) e hre2).mp (by omega)
    have hnoteq : (∀ ei, (l.drop c)[ins]? = some ei → ei.id ≠ t) →
        ∀ k e, c ≤ k → l[k]? = some e → e.id ≠ t := by
      intro hinsne k e hk he het
      have hre2 : (l.drop c)[k - c]? = some e := by
        rw [hrg (k - c)]
        have heq : c + (k - c) = k := by omega
        rw [heq]; exact he
      have hge : ¬ (k - c < ins) := fun hlt => by
        have := (hiff (k - c) e hre2).mp hlt
        omega
      rcases Nat.lt_or_ge ins (k - c) with hgt | hle2
      · have hinslt : ins < (l.drop c).length := by
          obtain ⟨hh, _⟩ := List.getElem?_eq_some.mp hre2
          omega
        obtain ⟨ei, hei⟩ : ∃ ei, (l.drop c)[ins]? = some ei := by
          rw [List.getElem?_eq_getElem hinslt]
          exact ⟨_, rfl⟩
        have hlt1 := sorted_id_strict_mono (l.drop c) hremsort ins (k - c) hgt
          ei e hei hre2
        have hlt2 : ¬ ei.id < t := fun hlt => by
          have := (hiff ins ei hei).mpr hlt
          omega
        omega
      · have heqk : k - c = ins := by omega
        rw [heqk] at hre2
        exact hinsne e hre2 het
    have hru : (PostingListIterator.mk l c).skip_to t =
        (match (l.drop c)[ins]? with
         | some e =>
           if e.id = t then
             (some e, PostingListIterator.mk l (c + ins))
           else (none, PostingListIterator.mk l (c + ins))
         | none => (none, PostingListIterator.mk l (c + ins))) := by
      rw [PostingListIterator.skip_to]
      rw [if_neg (by simpa using hend)]
    rcases hre : (l.drop c)[ins]? with _ | e
    · have hru2 : (PostingListIterator.mk l c).skip_to t =
          (none, PostingListIterator.mk l (c + ins)) := by
        rw [hru, hre]
      have hinsl : ins = (l.drop c).length := by
        have hn : ¬ ins < (l.drop c).length := by
          intro hlt
          rw [List.getElem?_eq_getElem hlt] at hre
          exact Option.noConfusion hre
        omega
      have hinsne : ∀ ei, (l.drop c)[ins]? = some ei → ei.id ≠ t := by
        intro ei hei
        rw [hre] at hei
        exact Option.noConfusion hei
      rw [hru2]
      dsimp only
      refine ⟨by omega, by omega, rfl, by simp, fun _ => ⟨hnoteq hinsne, ?_, ?_⟩⟩
      · intro k f hk1 hk2 hf
        exact hbelow k f hk1 (by simpa using hk2) hf
      · intro f hf
        obtain ⟨hlt, _⟩ := List.getElem?_eq_some.mp hf
        omega
    · have hru2 : (PostingListIterator.mk l c).skip_to t =
          (if e.id = t then (some e, PostingListIterator.mk l (c + ins))
           else (none, PostingListIterator.mk l (c + ins))) := by
        rw [hru, hre]
      have hinslt : ins < (l.drop c).length := by
        obtain ⟨hh, _⟩ := List.getElem?_eq_some.mp hre
        omega
      by_cases heq : e.id = t
      · rw [if_pos heq] at hru2
        rw [hru2]
        dsimp only
        refine ⟨by omega, by omega, rfl, ?_, by simp⟩
        intro f hf
        simp only [Option.some_inj] at hf
        subst hf
        refine ⟨?_, heq⟩
        rw [← hrg ins]
        exact hre
      · rw [if_neg heq] at hru2
        have hinsne : ∀ ei, (l.drop c)[ins]? = some ei → ei.id ≠ t := by
          intro ei hei
          rw [hre] at hei
          simp only [Option.some_inj] at hei
          subst hei
          exact heq
        rw [hru2]
        dsimp only
        refine ⟨by omega, by omega, rfl, by simp, fun _ => ⟨hnoteq hinsne, ?_, ?_⟩⟩
        · intro k f hk1 hk2 hf
          exact hbelow k f hk1 (by simpa using hk2) hf
        · intro f hf
          rw [← hrg ins] at hf
          rw [hre] at hf
          simp only [Option.some_inj] at hf
          subst hf
          have hge : ¬ e.id < t := fun hlt => by
            have := (hiff ins e hre).mpr hlt
            omega
          omega

/-- C6: on a strictly ascending posting list, `skip_to(target)` never moves
the cursor backward nor past the end and keeps the elements; when it
returns an element, that element has id `target` and the cursor rests on
it; when it returns `None`, no element at or after the starting cursor has
id `target`, every skipped element has id below `target`, and the element
now under the cursor (when one exists) has id above `target`. -/
theorem claim_C6_skip_to (it : PostingListIterator) (t : Nat)
    (hsort : it.elements.Pairwise (fun a b => a.id < b.id))
    (hc : it.current_index ≤ it.elements.length) :
    it.current_index ≤ (it.skip_to t).2.current_index ∧
    (it.skip_to t).2.current_index ≤ it.elements.length ∧
    (it.skip_to t).2.elements = it.elements ∧
    (∀ e, (it.skip_to t).1 = some e →
      it.elements[(it.skip_to t).2.current_index]? = some e ∧ e.id = t) ∧
    ((it.skip_to t).1 = none →
      (∀ k e, it.current_index ≤ k → it.elements[k]? = some e → e.id ≠ t) ∧
      (∀ k e, it.current_index ≤ k → k < (it.skip_to t).2.current_index →
        it.elements[k]? = some e → e.id < t) ∧
      (∀ e, it.elements[(it.skip_to t).2.current_index]? = some e → t < e.id)) := by
  obtain ⟨l, c⟩ := it
  exact skip_to_spec_aux l c t hsort hc

/-- The Scenario C iterator: posting list with ids
`[1,2,3,5,7,8,10,11,20]`, cursor at position 2. -/
def scenarioCIter : PostingListIterator :=
  PostingListIterator.mk
    (PostingList.from [(1, 1), (2, 1), (3, 1), (5, 1), (7, 1), (8, 1),
      (10, 1), (11, 1), (20, 1)]).elements 2

/-- Witness for C6: Scenario C, `skip_to 9` (id 9 absent). -/
theorem claim_C6_witness :
    (scenarioCIter.elements.Pairwise (fun a b => a.id < b.id)) ∧
    (scenarioCIter.current_index ≤ scenarioCIter.elements.length) ∧
    (scenarioCIter.current_index ≤ (scenarioCIter.skip_to 9).2.current_index ∧
    (scenarioCIter.skip_to 9).2.current_index ≤ scenarioCIter.elements.length ∧
    (scenarioCIter.skip_to 9).2.elements = scenarioCIter.elements ∧
    (∀ e, (scenarioCIter.skip_to 9).1 = some e →
      scenarioCIter.elements[(scenarioCIter.skip_to 9).2.current_index]? = some e ∧
        e.id = 9) ∧
    ((scenarioCIter.skip_to 9).1 = none →
      (∀ k e, scenarioCIter.current_index ≤ k →
        scenarioCIter.elements[k]? = some e → e.id ≠ 9) ∧
      (∀ k e, scenarioCIter.current_index ≤ k →
        k < (scenarioCIter.skip_to 9).2.current_index →
        scenarioCIter.elements[k]? = some e → e.id < 9) ∧
      (∀ e, scenarioCIter.elements[(scenarioCIter.skip_to 9).2.current_index]? =
        some e → 9 < e.id))) :=
  ⟨by decide, by decide, claim_C6_skip_to scenarioCIter 9 (by decide) (by decide)⟩

/-! ### C9: storage add -/

theorem assocGet_nil (k : Nat) : assocGet ([] : List (Nat × α)) k = none := by
  simp [assocGet]

theorem assocGet_cons (k1 : Nat) (l1 : α) (rest : List (Nat × α))
    (k : Nat) :
    assocGet ((k1, l1) :: rest) k = if k1 = k then some l1 else assocGet rest k := by
  by_cases h : k1 = k
  · subst h
    simp [assocGet]
  · simp [assocGet, List.find?, h]

theorem assocGet_assocPush_same (k : Nat) (rid : Nat) (m : List (Nat × List Nat)) :
    assocGet (assocPush k rid m) k = some (((assocGet m k).getD []) ++ [rid]) := by
  induction m with
  | nil => simp [assocPush, assocGet_cons, assocGet_nil]
  | cons p rest ih =>
    obtain ⟨k1, l1⟩ := p
    by_cases h : k1 = k
    · subst h
      simp [assocPush, assocGet_cons]
    · simp only [assocPush, if_neg h]
      rw [assocGet_cons, assocGet_cons, if_neg h, if_neg h, ih]

theorem assocGet_assocPush_other (k k2 : Nat) (rid : Nat)
    (m : List (Nat × List Nat)) (h : k2 ≠ k) :
    assocGet (assocPush k rid m) k2 = assocGet m k2 := by
  induction m with
  | nil =>
    simp only [assocPush]
    rw [assocGet_cons, if_neg (fun he => h he.symm)]
  | cons p rest ih =>
    obtain ⟨k1, l1⟩ := p
    by_cases hk : k1 = k
    · subst hk
      simp only [assocPush, eq_self_iff_true, if_true, ite_true]
      rw [assocGet_cons, assocGet_cons, if_neg (fun he => h he.symm),
        if_neg (fun he => h he.symm)]
    · simp only [assocPush, if_neg hk]
      rw [assocGet_cons, assocGet_cons, ih]

/-- Membership in a mutable-index posting survives further `assocPush`es. -/
theorem mem_assocPush_preserved (k2 rid2 : Nat) (m : List (Nat × List Nat))
    (d : Nat) (p : List Nat) (rid : Nat)
    (hget : assocGet m d = some p) (hmem : rid ∈ p) :
    ∃ p2, assocGet (assocPush k2 rid2 m) d = some p2 ∧ rid ∈ p2 := by
  by_cases h : d = k2
  · subst h
    refine ⟨((assocGet m d).getD []) ++ [rid2], assocGet_assocPush_same d rid2 m, ?_⟩
    rw [hget]
    simp [hmem]
  · exact ⟨p, by rw [assocGet_assocPush_other k2 d rid2 m h]; exact hget, hmem⟩

/-- After folding `assocPush` over a list of dimensions, every dimension of
the list holds the pushed record id. -/
theorem mem_mutableIndexAdd_aux (rid : Nat) :
    ∀ (L : List Nat) (m : List (Nat × List Nat)) (d : Nat),
      (d ∈ L ∨ ∃ p, assocGet m d = some p ∧ rid ∈ p) →
      ∃ p, assocGet (L.foldl (fun acc i => assocPush i rid acc) m) d = some p ∧
        rid ∈ p := by
  intro L
  induction L with
  | nil =>
    intro m d h
    rcases h with h | h
    · simp at h
    · simpa using h
  | cons i rest ih =>
    intro m d h
    simp only [List.foldl_cons]
    rcases h with h | ⟨p, hget, hmem⟩
    · rcases List.mem_cons.mp h with rfl | hrest
      · refine ih (assocPush d rid m) d (Or.inr ?_)
        exact ⟨((assocGet m d).getD []) ++ [rid],
          assocGet_assocPush_same d rid m, by simp⟩
      · exact ih (assocPush i rid m) d (Or.inl hrest)
    · refine ih (assocPush i rid m) d (Or.inr ?_)
      exact mem_assocPush_preserved i rid m d p rid hget hmem

/-- The concrete storage obtained by adding record id 1 into fresh storage;
its slot 0 is allocated but holds no vector. -/
def c9Storage1 : SparseVectorStorage :=
  (SparseVectorStorage.new.add 1 (SparseVector.mk [5] [1])).toOption.getD
    SparseVectorStorage.new

/-- Counterexample for C9 as stated: after adding only record id 1, no
vector with record id 0 is stored (slot 0 holds `None`), yet
`add(0, ...)` still panics (`Except.error`). -/
theorem claim_C9_counterexample :
    (SparseVectorStorage.new.add 1 (SparseVector.mk [5] [1])).toOption =
      some c9Storage1 ∧
    c9Storage1.get 0 = some none ∧
    (c9Storage1.add 0 (SparseVector.mk [5] [2])).toOption = none := by decide

/-- C9 (amended): `add(rid, vector)` panics exactly when `rid` is below the
current length of the vector store — whether or not that slot holds a
vector; on success the vector is stored at `rid` (the store growing to
`rid + 1` slots) and `rid` is registered in the mutable index under every
dimension of the vector. -/
theorem claim_C9_add_amended (s : SparseVectorStorage) (rid : Nat)
    (v : SparseVector) :
    ((∃ e, s.add rid v = Except.error e) ↔ rid < s.vectors.length) ∧
    (∀ s2, s.add rid v = Except.ok s2 →
      s2.get rid = some (some v) ∧
      s2.vectors.length = rid + 1 ∧
      ∀ d ∈ v.indices, ∃ p, assocGet s2.mutable_index d = some p ∧ rid ∈ p) := by
  refine ⟨⟨?_, ?_⟩, ?_⟩
  · rintro ⟨e, he⟩
    by_contra h
    rw [SparseVectorStorage.add] at he
    rw [if_neg h] at he
    exact Except.noConfusion he
  · intro h
    exact ⟨"vector already exists", by rw [SparseVectorStorage.add, if_pos h]⟩
  · intro s2 hok
    rw [SparseVectorStorage.add] at hok
    by_cases h : rid < s.vectors.length
    · rw [if_pos h] at hok
      exact Except.noConfusion hok
    · rw [if_neg h] at hok
      cases hok
      have hlen : (s.vectors ++ List.replicate (rid - s.vectors.length) none).length
          = rid := by
        simp only [List.length_append, List.length_replicate]
        omega
      refine ⟨?_, ?_, ?_⟩
      · rw [SparseVectorStorage.get]
        dsimp only
        rw [List.getElem?_append_right (by rw [hlen])]
        rw [hlen, Nat.sub_self]
        rfl
      · dsimp only
        simp only [List.length_append, List.length_replicate, List.length_cons,
          List.length_nil]
        omega
      · intro d hd
        dsimp only
        rw [mutableIndexAdd]
        exact mem_mutableIndexAdd_aux rid v.indices s.mutable_index d (Or.inl hd)

/-- Witness for C9 (amended) at a concrete input. -/
theorem claim_C9_witness :
    ((∃ e, SparseVectorStorage.new.add 2 (SparseVector.mk [4] [3]) = Except.error e)
      ↔ 2 < SparseVectorStorage.new.vectors.length) ∧
    (∀ s2, SparseVectorStorage.new.add 2 (SparseVector.mk [4] [3]) = Except.ok s2 →
      s2.get 2 = some (some (SparseVector.mk [4] [3])) ∧
      s2.vectors.length = 2 + 1 ∧
      ∀ d ∈ (SparseVector.mk [4] [3]).indices,
        ∃ p, assocGet s2.mutable_index d = some p ∧ 2 ∈ p) :=
  claim_C9_add_amended SparseVectorStorage.new 2 (SparseVector.mk [4] [3])

/-! ### C4: the two inverted-index builders -/

/-- `InvertedIndexBuilder::add` folded over a list of pairs. -/
def InvertedIndexBuilder.addAll (b : InvertedIndexBuilder)
    (l : List (Nat × PostingList)) : InvertedIndexBuilder :=
  l.foldl (fun acc p => acc.add p.1 p.2) b

/-- `InvertedIndexBuilder::add` (ram variant) folded over a list of pairs. -/
def InvertedIndexRamBuilder.addAll (b : InvertedIndexRamBuilder)
    (l : List (Nat × PostingList)) : InvertedIndexRamBuilder :=
  l.foldl (fun acc p => acc.add p.1 p.2) b

theorem vecInsert_length (a : α) : ∀ (n : Nat) (l : List α),
    (vecInsert n a l).length = l.length + 1
  | 0, l => by simp [vecInsert]
  | n + 1, [] => by simp [vecInsert]
  | n + 1, x :: xs => by
    simp only [vecInsert, List.length_cons]
    rw [vecInsert_length a n xs]

theorem getElem?_vecInsert_lt (a : α) : ∀ (n : Nat) (l : List α) (j : Nat),
    j < n → n ≤ l.length → (vecInsert n a l)[j]? = l[j]?
  | 0, _, j, h, _ => by omega
  | n + 1, [], j, h, hn => by simp at hn
  | n + 1, x :: xs, j, h, hn => by
    simp only [vecInsert]
    match j with
    | 0 => simp
    | j + 1 =>
      simp only [List.getElem?_cons_succ]
      exact getElem?_vecInsert_lt a n xs j (by omega) (by simpa using hn)

theorem getElem?_vecInsert_self (a : α) : ∀ (n : Nat) (l : List α),
    n ≤ l.length → (vecInsert n a l)[n]? = some a
  | 0, l, _ => by simp [vecInsert]
  | n + 1, [], h => by simp at h
  | n + 1, x :: xs, h => by
    simp only [vecInsert, List.getElem?_cons_succ]
    exact getElem?_vecInsert_self a n xs (by simpa using h)

theorem getElem?_vecInsert_gt (a : α) : ∀ (n : Nat) (l : List α) (j : Nat),
    n < j → (vecInsert n a l)[j]? = l[j - 1]?
  | 0, l, j, h => by
    match j with
    | 0 => omega
    | j + 1 => simp [vecInsert]
  | n + 1, [], j, h => by
    match j with
    | 0 => omega
    | j + 1 => simp [vecInsert]
  | n + 1, x :: xs, j, h => by
    match j with
    | 0 => omega
    | j + 1 =>
      simp only [vecInsert, List.getElem?_cons_succ, Nat.add_sub_cancel]
      rw [getElem?_vecInsert_gt a n xs j (by omega)]
      match j with
      | 0 => omega
      | j + 1 => simp

/-- `HashMap::insert` with a fresh key appends the pair. -/
theorem assocInsert_of_not_mem (k : Nat) (v : α) :
    ∀ (m : List (Nat × α)), k ∉ m.map Prod.fst → assocInsert k v m = m ++ [(k, v)]
  | [], _ => rfl
  | (k1, v1) :: rest, h => by
    simp only [List.map_cons, List.mem_cons] at h
    push_neg at h
    simp only [assocInsert]
    rw [if_neg (fun he => h.1 he.symm), assocInsert_of_not_mem k v rest h.2]
    simp

/-- Adding pairwise-distinct keys to the builder's `HashMap` yields exactly
the input association list. -/
theorem foldl_assocInsert_eq (input : List (Nat × PostingList)) :
    ∀ (m : List (Nat × PostingList)),
      ((m.map Prod.fst) ++ (input.map Prod.fst)).Nodup →
      input.foldl (fun acc p => assocInsert p.1 p.2 acc) m = m ++ input := by
  induction input with
  | nil => intro m h; simp
  | cons p rest ih =>
    intro m h
    obtain ⟨k, v⟩ := p
    simp only [List.foldl_cons]
    have hk : k ∉ m.map Prod.fst := by
      rcases List.nodup_append.mp (by simpa using h) with ⟨h1, h2, hdisj⟩
      intro hmem
      exact hdisj hmem (by simp)
    show rest.foldl (fun acc p => assocInsert p.1 p.2 acc) (assocInsert k v m) = _
    rw [assocInsert_of_not_mem k v m hk]
    have hnd : ((m ++ [(k, v)]).map Prod.fst ++ rest.map Prod.fst).Nodup := by
      simpa [List.append_assoc] using h
    rw [ih (m ++ [(k, v)]) hnd]
    simp

/-- Effect of the ram builder's assignment loop `postings[key] = ...`. -/
theorem foldl_set_spec (f : Nat → PostingList) :
    ∀ (K : List Nat) (S : List PostingList), K.Nodup →
      ((K.foldl (fun acc k => acc.set k (f k)) S).length = S.length) ∧
      (∀ j ∈ K, j < S.length →
        (K.foldl (fun acc k => acc.set k (f k)) S)[j]? = some (f j)) ∧
      (∀ j, j ∉ K → (K.foldl (fun acc k => acc.set k (f k)) S)[j]? = S[j]?) := by
  intro K
  induction K with
  | nil => intro S _; exact ⟨rfl, by simp, fun j _ => rfl⟩
  | cons k K2 ih =>
    intro S hnd
    rcases List.nodup_cons.mp hnd with ⟨hk, hnd2⟩
    simp only [List.foldl_cons]
    obtain ⟨ha, hb, hc⟩ := ih (S.set k (f k)) hnd2
    refine ⟨by rw [ha, List.length_set], ?_, ?_⟩
    · intro j hj hjlen
      rcases List.mem_cons.mp hj with rfl | hj2
      · rw [hc j hk, List.getElem?_set_self hjlen]
      · exact hb j hj2 (by rw [List.length_set]; exact hjlen)
    · intro j hj
      have h1 : j ≠ k := fun he => hj (he ▸ List.mem_cons_self k K2)
      have h2 : j ∉ K2 := fun hm => hj (List.mem_cons_of_mem k hm)
      rw [hc j h2, List.getElem?_set_ne (fun he => h1 he.symm)]

/-- Effect of the older builder's `Vec::insert` loop over strictly
ascending keys starting from an all-placeholder vector. -/
theorem foldl_vecInsert_spec (f : Nat → PostingList) :
    ∀ (K : List Nat) (S : List PostingList),
      K.Pairwise (· < ·) →
      (∀ k ∈ K, k ≤ S.length) →
      (∀ k ∈ K, ∀ j, k ≤ j → j < S.length → S[j]? = some PostingList.default) →
      ((K.foldl (fun acc k => vecInsert k (f k) acc) S).length =
        S.length + K.length) ∧
      (∀ j ∈ K, (K.foldl (fun acc k => vecInsert k (f k) acc) S)[j]? = some (f j)) ∧
      (∀ j, (∀ k ∈ K, j < k) →
        (K.foldl (fun acc k => vecInsert k (f k) acc) S)[j]? = S[j]?) ∧
      (∀ j, j ∉ K → (∃ k ∈ K, k < j) → j < S.length + K.length →
        (K.foldl (fun acc k => vecInsert k (f k) acc) S)[j]? =
          some PostingList.default) := by
  intro K
  induction K with
  | nil =>
    intro S _ _ _
    refine ⟨rfl, by simp, fun j _ => rfl, ?_⟩
    intro j _ hex _
    rcases hex with ⟨k, hk, _⟩
    simp at hk
  | cons k K2 ih =>
    intro S hsort hbound hdef
    rcases hsort with _ | ⟨hklt, hsort2⟩
    replace hklt : ∀ k2 ∈ K2, k < k2 := hklt
    have hkS : k ≤ S.length := hbound k (List.mem_cons_self k K2)
    simp only [List.foldl_cons]
    have hlen1 : (vecInsert k (f k) S).length = S.length + 1 := vecInsert_length _ k S
    have hb2 : ∀ k2 ∈ K2, k2 ≤ (vecInsert k (f k) S).length := by
      intro k2 hk2
      rw [hlen1]
      exact Nat.le_succ_of_le (hbound k2 (List.mem_cons_of_mem k hk2))
    have hd2 : ∀ k2 ∈ K2, ∀ j, k2 ≤ j → j < (vecInsert k (f k) S).length →
        (vecInsert k (f k) S)[j]? = some PostingList.default := by
      intro k2 hk2 j hj hjlen
      rw [hlen1] at hjlen
      have hkk2 : k < k2 := hklt k2 hk2
      have hjk : k < j := by omega
      rw [getElem?_vecInsert_gt (f k) k S j hjk]
      exact hdef k (List.mem_cons_self k K2) (j - 1) (by omega) (by omega)
    obtain ⟨ia, ib, ic, id2⟩ := ih (vecInsert k (f k) S) hsort2 hb2 hd2
    refine ⟨?_, ?_, ?_, ?_⟩
    · rw [ia, hlen1, List.length_cons]
      omega
    · intro j hj
      rcases List.mem_cons.mp hj with rfl | hj2
      · rw [ic j (fun k2 hk2 => hklt k2 hk2),
          getElem?_vecInsert_self (f j) j S hkS]
      · exact ib j hj2
    · intro j hjall
      have hjk : j < k := hjall k (List.mem_cons_self k K2)
      rw [ic j (fun k2 hk2 => hjall k2 (List.mem_cons_of_mem k hk2)),
        getElem?_vecInsert_lt (f k) k S j hjk hkS]
    · intro j hj hex hjlen
      have hjne : j ≠ k := fun he => hj (he ▸ List.mem_cons_self k K2)
      have hjnK2 : j ∉ K2 := fun hm => hj (List.mem_cons_of_mem k hm)
      by_cases hex2 : ∃ k2 ∈ K2, k2 < j
      · refine id2 j hjnK2 hex2 ?_
        rw [hlen1]
        rw [List.length_cons] at hjlen
        omega
      · push_neg at hex2
        have hjall : ∀ k2 ∈ K2, j < k2 := by
          intro k2 hk2
          have h1 := hex2 k2 hk2
          have h2 : k2 ≠ j := fun he => hjnK2 (he ▸ hk2)
          omega
        have hkj : k < j := by
          rcases hex with ⟨k0, hk0, hk0j⟩
          rcases List.mem_cons.mp hk0 with rfl | hk0m
          · exact hk0j
          · exact absurd hk0j (by have := hjall k0 hk0m; omega)
        have hjle : j - 1 < S.length := by
          rcases List.eq_nil_or_concat K2 with rfl | _
          · simp only [List.length_cons, List.length_nil] at hjlen
            omega
          · rcases (by
              rcases K2 with _ | ⟨k2, K3⟩
              · simp_all
              · exact ⟨k2, List.mem_cons_self k2 K3⟩ : ∃ k2, k2 ∈ K2) with ⟨k2, hk2⟩
            have := hjall k2 hk2
            have := hbound k2 (List.mem_cons_of_mem k hk2)
            omega
        rw [ic j hjall, getElem?_vecInsert_gt (f k) k S j hkj]
        exact hdef k (List.mem_cons_self k K2) (j - 1) (by omega) hjle

theorem mem_le_getLastD (s : List Nat) (hs : s.Pairwise (· ≤ ·)) :
    ∀ x ∈ s, x ≤ s.getLast?.getD 0 := by
  induction s with
  | nil => simp
  | cons a s2 ih =>
    rcases hs with _ | ⟨ha, hs2⟩
    replace ha : ∀ b ∈ s2, a ≤ b := ha
    intro x hx
    rcases s2 with _ | ⟨b, s3⟩
    · simp at hx
      simp [hx]
    · have hlast : (a :: b :: s3).getLast? = (b :: s3).getLast? := by
        simp [List.getLast?]
      rw [hlast]
      rcases List.mem_cons.mp hx with rfl | hx2
      · have hmem : (b :: s3).getLast?.getD 0 ∈ b :: s3 := by
          rw [List.getLast?_eq_getLast (b :: s3) (by simp)]
          exact List.getLast_mem (by simp)
        exact ha _ hmem
      · exact ih hs2 x hx2

theorem sorted_getLastD_eq_foldr_max (s : List Nat) (hs : s.Pairwise (· ≤ ·)) :
    s.getLast?.getD 0 = s.foldr max 0 := by
  induction s with
  | nil => simp
  | cons a s2 ih =>
    rcases hs with _ | ⟨ha, hs2⟩
    replace ha : ∀ b ∈ s2, a ≤ b := ha
    rcases s2 with _ | ⟨b, s3⟩
    · simp
    · have hlast : (a :: b :: s3).getLast? = (b :: s3).getLast? := by
        simp [List.getLast?]
      have hmem : (b :: s3).getLast?.getD 0 ∈ b :: s3 := by
        rw [List.getLast?_eq_getLast (b :: s3) (by simp)]
        exact List.getLast_mem (by simp)
      have hle : a ≤ (b :: s3).getLast?.getD 0 := ha _ hmem
      rw [List.foldr_cons, ← ih hs2, hlast]
      omega

theorem foldr_max_perm {l1 l2 : List Nat} (p : List.Perm l1 l2) :
    l1.foldr max 0 = l2.foldr max 0 := by
  induction p with
  | nil => rfl
  | cons x _ ih => simp only [List.foldr_cons, ih]
  | swap x y l =>
    simp only [List.foldr_cons]
    omega
  | trans _ _ ih1 ih2 => rw [ih1, ih2]

/-- `assocGet` finds the pair in an association list with distinct keys. -/
theorem assocGet_of_mem_nodup :
    ∀ (input : List (Nat × PostingList)) (d : Nat) (p : PostingList),
      (input.map Prod.fst).Nodup → (d, p) ∈ input → assocGet input d = some p := by
  intro input
  induction input with
  | nil => intro d p _ h; simp at h
  | cons q rest ih =>
    intro d p hnd hmem
    obtain ⟨k1, v1⟩ := q
    rw [List.map_cons] at hnd
    rcases List.nodup_cons.mp hnd with ⟨hk1, hnd2⟩
    rcases List.mem_cons.mp hmem with he | hmem2
    · simp only [Prod.mk.injEq] at he
      obtain ⟨rfl, rfl⟩ := he
      rw [assocGet_cons, if_pos rfl]
    · have hne : k1 ≠ d := by
        intro he
        subst he
        exact hk1 (by simpa using List.mem_map_of_mem Prod.fst hmem2)
      rw [assocGet_cons, if_neg hne]
      exact ih d p hnd2 hmem2

theorem builder_addAll_postings :
    ∀ (l : List (Nat × PostingList)) (b : InvertedIndexBuilder),
      (b.addAll l).postings = l.foldl (fun acc p => assocInsert p.1 p.2 acc) b.postings
  | [], _ => rfl
  | p :: rest, b => by
    simp only [InvertedIndexBuilder.addAll, List.foldl_cons]
    exact builder_addAll_postings rest (b.add p.1 p.2)

theorem ramBuilder_addAll_postings :
    ∀ (l : List (Nat × PostingList)) (b : InvertedIndexRamBuilder),
      (b.addAll l).postings = l.foldl (fun acc p => assocInsert p.1 p.2 acc) b.postings
  | [], _ => rfl
  | p :: rest, b => by
    simp only [InvertedIndexRamBuilder.addAll, List.foldl_cons]
    exact ramBuilder_addAll_postings rest (b.add p.1 p.2)

theorem builder_build_postings (b : InvertedIndexBuilder) :
    b.build.postings = b.sortedKeys.foldl
      (fun acc k => vecInsert k ((assocGet b.postings k).getD PostingList.default) acc)
      (List.replicate (b.sortedKeys.getLast?.getD 0) PostingList.default) := rfl

theorem ram_build_postings (b : InvertedIndexRamBuilder) :
    b.build.postings = b.sortedKeys.foldl
      (fun acc k => acc.set k ((assocGet b.postings k).getD PostingList.default))
      (List.replicate (b.sortedKeys.getLast?.getD 0 + 1) PostingList.default) := rfl

/-- Counterexample for C4 as stated: adding dimensions 0 and 1 (with
`max_dim_id = 1`) to the sparse_index/inverted_index.rs builder yields a
postings vector of length 3, not `max_dim_id + 1 = 2` — `resize(last_key)`
followed by `Vec::insert` leaves one extra placeholder per added key. -/
theorem claim_C4_counterexample :
    ((InvertedIndexBuilder.new.addAll
      [(0, PostingList.from [(1, 1)]), (1, PostingList.from [(2, 2)])]).build.postings.length = 3) ∧
    ¬ ((InvertedIndexBuilder.new.addAll
      [(0, PostingList.from [(1, 1)]), (1, PostingList.from [(2, 2)])]).build.postings.length = 1 + 1) := by
  decide

/-- C4 (amended): for every non-empty list of `(dim, posting)` pairs with
distinct dims, the inverted_index_ram.rs builder satisfies the claim as
stated — postings length `max_dim_id + 1`, every added dim mapped to its
posting list, every other in-range dim an empty placeholder.  The older
sparse_index/inverted_index.rs builder returns the same lookups but its
postings vector has length `max_dim_id + number_of_added_dims`. -/
theorem claim_C4_builders (input : List (Nat × PostingList))
    (hne : input ≠ []) (hnodup : (input.map Prod.fst).Nodup) :
    ((InvertedIndexRamBuilder.new.addAll input).build.postings.length =
      (input.map Prod.fst).foldr max 0 + 1) ∧
    (∀ d p, (d, p) ∈ input →
      (InvertedIndexRamBuilder.new.addAll input).build.get d = some p) ∧
    (∀ d, d < (InvertedIndexRamBuilder.new.addAll input).build.postings.length →
      d ∉ input.map Prod.fst →
      (InvertedIndexRamBuilder.new.addAll input).build.get d =
        some PostingList.default) ∧
    ((InvertedIndexBuilder.new.addAll input).build.postings.length =
      (input.map Prod.fst).foldr max 0 + input.length) ∧
    (∀ d p, (d, p) ∈ input →
      (InvertedIndexBuilder.new.addAll input).build.get d = some p) ∧
    (∀ d, d < (InvertedIndexBuilder.new.addAll input).build.postings.length →
      d ∉ input.map Prod.fst →
      (InvertedIndexBuilder.new.addAll input).build.get d =
        some PostingList.default) := by
  have hpostR : (InvertedIndexRamBuilder.new.addAll input).postings = input := by
    rw [ramBuilder_addAll_postings]
    exact foldl_assocInsert_eq input [] (by simpa using hnodup)
  have hpostB : (InvertedIndexBuilder.new.addAll input).postings = input := by
    rw [builder_addAll_postings]
    exact foldl_assocInsert_eq input [] (by simpa using hnodup)
  have hkeysR : (InvertedIndexRamBuilder.new.addAll input).sortedKeys =
      insSortBy (fun a b => decide (a ≤ b)) (input.map Prod.fst) := by
    rw [InvertedIndexRamBuilder.sortedKeys, hpostR]
  have hkeysB : (InvertedIndexBuilder.new.addAll input).sortedKeys =
      insSortBy (fun a b => decide (a ≤ b)) (input.map Prod.fst) := by
    rw [InvertedIndexBuilder.sortedKeys, hpostB]
  set keys := insSortBy (fun a b => decide (a ≤ b)) (input.map Prod.fst) with hkeys
  have hperm : List.Perm keys (input.map Prod.fst) :=
    insSortBy_perm (fun a b => decide (a ≤ b)) (input.map Prod.fst)
  have hsorted_le : keys.Pairwise (· ≤ ·) := by
    have h := insSortBy_pairwise (fun a b : Nat => decide (a ≤ b))
      (fun a b hf => by
        simp only [decide_eq_false_iff_not, Nat.not_le] at hf
        simpa using Nat.le_of_lt hf)
      (fun a b c h1 h2 => by
        simp only [decide_eq_true_eq] at h1 h2 ⊢
        omega) (input.map Prod.fst)
    exact h.imp (fun hab => by simpa using hab)
  have hkeys_nodup : keys.Nodup := hperm.nodup_iff.mpr hnodup
  have hsorted_lt : keys.Pairwise (· < ·) :=
    (hsorted_le.and hkeys_nodup).imp (fun h => Nat.lt_of_le_of_ne h.1 h.2)
  have hlast : keys.getLast?.getD 0 = (input.map Prod.fst).foldr max 0 :=
    (sorted_getLastD_eq_foldr_max keys hsorted_le).trans (foldr_max_perm hperm)
  set maxD := (input.map Prod.fst).foldr max 0 with hmaxD
  have hbound : ∀ k ∈ keys, k ≤ maxD := by
    intro k hk
    have := mem_le_getLastD keys hsorted_le k hk
    omega
  have hmem_iff : ∀ d, d ∈ keys ↔ d ∈ input.map Prod.fst := fun d => hperm.mem_iff
  have hkeyslen : keys.length = input.length := by
    rw [hperm.length_eq, List.length_map]
  have hkeysne : keys ≠ [] := by
    intro h
    have : input.length = 0 := by rw [← hkeyslen, h]; rfl
    exact hne (List.length_eq_zero.mp this)
  have hlookup : ∀ d p, (d, p) ∈ input →
      ((assocGet input d).getD PostingList.default) = p := by
    intro d p hdp
    rw [assocGet_of_mem_nodup input d p hnodup hdp]
    rfl
  -- ram builder
  obtain ⟨ra, rb, rc⟩ := foldl_set_spec
    (fun k => (assocGet input k).getD PostingList.default) keys
    (List.replicate (maxD + 1) PostingList.default) hkeys_nodup
  have hRpost : (InvertedIndexRamBuilder.new.addAll input).build.postings =
      keys.foldl (fun acc k => acc.set k ((assocGet input k).getD PostingList.default))
        (List.replicate (maxD + 1) PostingList.default) := by
    rw [ram_build_postings, hkeysR, hpostR, hlast]
  -- older builder
  obtain ⟨ba, bb, bc, bd⟩ := foldl_vecInsert_spec
    (fun k => (assocGet input k).getD PostingList.default) keys
    (List.replicate maxD PostingList.default) hsorted_lt
    (by intro k hk; rw [List.length_replicate]; exact hbound k hk)
    (by
      intro k hk j hj hjlen
      rw [List.length_replicate] at hjlen
      rw [List.getElem?_replicate, if_pos hjlen])
  have hBpost : (InvertedIndexBuilder.new.addAll input).build.postings =
      keys.foldl (fun acc k => vecInsert k ((assocGet input k).getD PostingList.default) acc)
        (List.replicate maxD PostingList.default) := by
    rw [builder_build_postings, hkeysB, hpostB, hlast]
  refine ⟨?_, ?_, ?_, ?_, ?_, ?_⟩
  · rw [hRpost, ra, List.length_replicate]
  · intro d p hdp
    rw [InvertedIndexRam.get, hRpost]
    have hd : d ∈ keys := (hmem_iff d).mpr (by
      simpa using List.mem_map_of_mem Prod.fst hdp)
    rw [rb d hd (by rw [List.length_replicate]; have := hbound d hd; omega)]
    rw [hlookup d p hdp]
  · intro d hdlen hdnot
    rw [InvertedIndexRam.get, hRpost]
    rw [hRpost, ra, List.length_replicate] at hdlen
    rw [rc d (fun hd => hdnot ((hmem_iff d).mp hd))]
    rw [List.getElem?_replicate, if_pos hdlen]
  · rw [hBpost, ba, List.length_replicate, hkeyslen]
  · intro d p hdp
    rw [InvertedIndex.get, hBpost]
    have hd : d ∈ keys := (hmem_iff d).mpr (by
      simpa using List.mem_map_of_mem Prod.fst hdp)
    rw [bb d hd, hlookup d p hdp]
  · intro d hdlen hdnot
    rw [InvertedIndex.get, hBpost]
    rw [hBpost, ba, List.length_replicate] at hdlen
    have hdk : d ∉ keys := fun hd => hdnot ((hmem_iff d).mp hd)
    by_cases hex : ∃ k ∈ keys, k < d
    · exact bd d hdk hex (by rw [List.length_replicate]; omega)
    · push_neg at hex
      have hdall : ∀ k ∈ keys, d < k := by
        intro k hk
        have h1 := hex k hk
        have h2 : k ≠ d := fun he => hdk (he ▸ hk)
        omega
      obtain ⟨k0, hk0⟩ : ∃ k0, k0 ∈ keys := by
        rcases keys with _ | ⟨k0, ks⟩
        · exact absurd rfl hkeysne
        · exact ⟨k0, List.mem_cons_self k0 ks⟩
      have hdm : d < maxD := by
        have := hdall k0 hk0
        have := hbound k0 hk0
        omega
      rw [bc d hdall, List.getElem?_replicate, if_pos (by omega)]

/-- Witness for C4 (amended) at a concrete input. -/
theorem claim_C4_witness :
    (([(0, PostingList.from [(1, 1)]), (2, PostingList.from [(2, 2)])] :
        List (Nat × PostingList)) ≠ []) ∧
    ((([(0, PostingList.from [(1, 1)]), (2, PostingList.from [(2, 2)])] :
        List (Nat × PostingList)).map Prod.fst).Nodup) ∧
    ((InvertedIndexRamBuilder.new.addAll
      [(0, PostingList.from [(1, 1)]), (2, PostingList.from [(2, 2)])]).build.postings.length =
      (([(0, PostingList.from [(1, 1)]), (2, PostingList.from [(2, 2)])] :
        List (Nat × PostingList)).map Prod.fst).foldr max 0 + 1) :=
  ⟨by decide, by decide,
    (claim_C4_builders [(0, PostingList.from [(1, 1)]), (2, PostingList.from [(2, 2)])]
      (by decide) (by decide)).1⟩

/-! ### C3: mmap get bound check off by one -/

/-- A two-dimension in-memory index (`N = 2`). -/
def c3Ram : InvertedIndexRam :=
  (InvertedIndexRamBuilder.new.addAll
    [(0, PostingList.from [(1, 10)]), (1, PostingList.from [(2, 20)])]).build

/-- The mmap index obtained by saving and reloading `c3Ram`. -/
def c3Mmap : InvertedIndexMmap :=
  InvertedIndexMmap.load (InvertedIndexMmap.convert_and_save c3Ram)

/-- C3: the bound check of `InvertedIndexMmap::get` is `id > posting_count`,
not `≥`.  On a saved index with `posting_count = 2`, `get 2` is NOT absent:
the guard passes and the code reads a "header" from byte 32, which lies in
the posting-element region (garbage / UB in the source, `invalidRead` in
the model); `get 3` is absent as the claim expects, and `get 0` returns the
stored elements. -/
theorem claim_C3_get_at_posting_count :
    c3Mmap.posting_count = 2 ∧
    c3Mmap.get 2 = MmapGetResult.invalidRead ∧
    c3Mmap.get 2 ≠ MmapGetResult.absent ∧
    c3Mmap.get 3 = MmapGetResult.absent ∧
    c3Mmap.get 0 =
      MmapGetResult.elements [PostingElement.mk 1 10 ⊥] :=
  of_decide_eq_true (by with_unfolding_all rfl)

/-! ### C8: mmap round-trip -/

theorem decodeU64_encodeU64 (v : Nat) : decodeU64 (encodeU64 v) = some v := by
  have hr : encodeU64 v = [MByte.u64frag v 0, MByte.u64frag v 1, MByte.u64frag v 2,
      MByte.u64frag v 3, MByte.u64frag v 4, MByte.u64frag v 5, MByte.u64frag v 6,
      MByte.u64frag v 7] := rfl
  rw [hr]
  simp only [decodeU64]
  rw [hr, if_pos rfl]

theorem decodeU32_encodeU32 (v : Nat) : decodeU32 (encodeU32 v) = some v := by
  have hr : encodeU32 v = [MByte.u32frag v 0, MByte.u32frag v 1, MByte.u32frag v 2,
      MByte.u32frag v 3] := rfl
  rw [hr]
  simp only [decodeU32]
  rw [hr, if_pos rfl]

theorem decodeF32_encodeF32 (w : WithBot ℚ) : decodeF32 (encodeF32 w) = some w := by
  have hr : encodeF32 w = [MByte.f32frag w 0, MByte.f32frag w 1, MByte.f32frag w 2,
      MByte.f32frag w 3] := rfl
  rw [hr]
  simp only [decodeF32]
  rw [hr, if_pos rfl]

theorem decodeHeader_encodeHeader (h : PostingListFileHeader) :
    decodeHeader (encodeHeader h) = some h := by
  have h1 : (encodeHeader h).take 8 = encodeU64 h.start_offset :=
    List.take_left' rfl
  have h2 : (encodeHeader h).drop 8 = encodeU64 h.end_offset :=
    List.drop_left' rfl
  rw [decodeHeader, h1, h2, decodeU64_encodeU64, decodeU64_encodeU64]
  rfl

theorem decodeElement_encodeElement (e : PostingElement) :
    decodeElement (encodeElement e) = some e := by
  have hassoc : encodeElement e = encodeU32 e.id ++
      (encodeF32 (e.weight : WithBot ℚ) ++ encodeF32 e.max_next_weight) := by
    rw [encodeElement, List.append_assoc]
  have h1 : (encodeElement e).take 4 = encodeU32 e.id := by
    rw [hassoc]; exact List.take_left' rfl
  have h2 : (encodeElement e).drop 4 =
      encodeF32 (e.weight : WithBot ℚ) ++ encodeF32 e.max_next_weight := by
    rw [hassoc]; exact List.drop_left' rfl
  have h3 : ((encodeElement e).drop 4).take 4 = encodeF32 (e.weight : WithBot ℚ) := by
    rw [h2]; exact List.take_left' rfl
  have h4 : (encodeElement e).drop 8 = encodeF32 e.max_next_weight := by
    rw [encodeElement]
    exact List.drop_left' rfl
  rw [decodeElement, h1, h3, h4, decodeU32_encodeU32, decodeF32_encodeF32,
    decodeF32_encodeF32]
  rfl

theorem length_flatten_encodeElement (els : List PostingElement) :
    ((els.map encodeElement).flatten).length = 12 * els.length := by
  induction els with
  | nil => simp
  | cons e rest ih =>
    simp only [List.map_cons, List.flatten_cons, List.length_append, ih,
      List.length_cons]
    have : (encodeElement e).length = 12 := rfl
    omega

theorem decodeElements_flatten (els : List PostingElement) :
    decodeElements ((els.map encodeElement).flatten) = some els := by
  induction els with
  | nil => simp [decodeElements]
  | cons e rest ih =>
    have hne : (((e :: rest).map encodeElement).flatten) ≠ [] := by
      simp only [List.map_cons, List.flatten_cons]
      intro h
      have := congrArg List.length h
      simp only [List.length_append, List.length_nil] at this
      have h12 : (encodeElement e).length = 12 := rfl
      omega
    rw [decodeElements]
    rw [dif_neg hne]
    have hsplit : ((e :: rest).map encodeElement).flatten =
        encodeElement e ++ (rest.map encodeElement).flatten := by
      simp
    have h1 : (((e :: rest).map encodeElement).flatten).take 12 = encodeElement e := by
      rw [hsplit]; exact List.take_left' rfl
    have h2 : (((e :: rest).map encodeElement).flatten).drop 12 =
        (rest.map encodeElement).flatten := by
      rw [hsplit]; exact List.drop_left' rfl
    rw [h1, h2, decodeElement_encodeElement, ih]

theorem length_savePostingHeaders :
    ∀ (postings : List PostingList) (offset : Nat),
      (savePostingHeaders postings offset).length = 16 * postings.length
  | [], _ => rfl
  | p :: rest, offset => by
    simp only [savePostingHeaders, List.length_append,
      length_savePostingHeaders rest, List.length_cons]
    have : (encodeHeader ⟨offset, offset + 12 * p.elements.length⟩).length = 16 := rfl
    omega

/-- Number of posting elements stored before dimension `d`. -/
def eltsBefore (postings : List PostingList) (d : Nat) : Nat :=
  ((postings.take d).map (fun q => q.elements.length)).sum

/-- The 16-byte slice at `d * 16` of the header region is dimension `d`'s
header, holding the running element-region offsets. -/
theorem savePostingHeaders_slice :
    ∀ (postings : List PostingList) (offset d : Nat) (p : PostingList),
      postings[d]? = some p →
      ((savePostingHeaders postings offset).drop (d * 16)).take 16 =
        encodeHeader ⟨offset + 12 * eltsBefore postings d,
          offset + 12 * eltsBefore postings d + 12 * p.elements.length⟩ := by
  intro postings
  induction postings with
  | nil => intro offset d p hp; simp at hp
  | cons q rest ih =>
    intro offset d p hp
    match d with
    | 0 =>
      simp only [List.getElem?_cons_zero, Option.some_inj] at hp
      subst hp
      simp only [Nat.zero_mul, List.drop_zero, savePostingHeaders]
      have htl : List.take 16
          (encodeHeader ⟨offset, offset + 12 * q.elements.length⟩ ++
            savePostingHeaders rest (offset + 12 * q.elements.length)) =
          encodeHeader ⟨offset, offset + 12 * q.elements.length⟩ :=
        List.take_left' rfl
      rw [htl]
      simp [eltsBefore]
    | d + 1 =>
      simp only [List.getElem?_cons_succ] at hp
      have hstep : (savePostingHeaders (q :: rest) offset).drop ((d + 1) * 16) =
          (savePostingHeaders rest (offset + 12 * q.elements.length)).drop (d * 16) := by
        simp only [savePostingHeaders]
        rw [List.drop_append_eq_append_drop]
        have h16 : (encodeHeader ⟨offset, offset + 12 * q.elements.length⟩).length = 16 :=
          rfl
        rw [h16]
        have hz : (d + 1) * 16 - 16 = d * 16 := by omega
        have hz2 : (encodeHeader ⟨offset, offset + 12 * q.elements.length⟩).drop
            ((d + 1) * 16) = [] := by
          apply List.drop_eq_nil_of_le
          rw [h16]
          omega
        rw [hz, hz2, List.nil_append]
      rw [hstep, ih (offset + 12 * q.elements.length) d p hp]
      have heb : eltsBefore (q :: rest) (d + 1) = q.elements.length + eltsBefore rest d := by
        simp only [eltsBefore, List.take_succ_cons, List.map_cons, List.sum_cons]
      rw [heb]
      have h1 : offset + 12 * q.elements.length + 12 * eltsBefore rest d =
          offset + 12 * (q.elements.length + eltsBefore rest d) := by omega
      rw [h1]

/-- The element-region slice for dimension `d` is exactly dimension `d`'s
encoded elements. -/
theorem savePostingElements_slice :
    ∀ (postings : List PostingList) (d : Nat) (p : PostingList),
      postings[d]? = some p →
      ((savePostingElements postings).drop (12 * eltsBefore postings d)).take
          (12 * p.elements.length) =
        (p.elements.map encodeElement).flatten := by
  intro postings
  induction postings with
  | nil => intro d p hp; simp at hp
  | cons q rest ih =>
    intro d p hp
    match d with
    | 0 =>
      simp only [List.getElem?_cons_zero, Option.some_inj] at hp
      subst hp
      simp only [eltsBefore, List.take_zero, List.map_nil, List.sum_nil,
        Nat.mul_zero, List.drop_zero]
      have hsplit : savePostingElements (q :: rest) =
          (q.elements.map encodeElement).flatten ++ savePostingElements rest := by
        simp [savePostingElements]
      rw [hsplit]
      exact List.take_left' (length_flatten_encodeElement q.elements)
    | d + 1 =>
      simp only [List.getElem?_cons_succ] at hp
      have heb : eltsBefore (q :: rest) (d + 1) = q.elements.length + eltsBefore rest d := by
        simp only [eltsBefore, List.take_succ_cons, List.map_cons, List.sum_cons]
      have hsplit : savePostingElements (q :: rest) =
          (q.elements.map encodeElement).flatten ++ savePostingElements rest := by
        simp [savePostingElements]
      rw [heb, hsplit, List.drop_append_eq_append_drop,
        length_flatten_encodeElement]
      have hz : (q.elements.map encodeElement).flatten.drop
          (12 * (q.elements.length + eltsBefore rest d)) = [] := by
        apply List.drop_eq_nil_of_le
        rw [length_flatten_encodeElement]
        omega
      rw [hz, List.nil_append]
      have hz2 : 12 * (q.elements.length + eltsBefore rest d) - 12 * q.elements.length =
          12 * eltsBefore rest d := by omega
      rw [hz2]
      exact ih d p hp

/-- Computation rule for `InvertedIndexMmap::get` once the header bytes
decode successfully. -/
theorem mmapGet_eq_of (idx : InvertedIndexMmap) (id : Nat)
    (h : PostingListFileHeader) (hguard : ¬ id > idx.posting_count)
    (hdr : decodeHeader ((idx.mmap.drop (id * 16)).take 16) = some h) :
    idx.get id =
      (match decodeElements
          ((idx.mmap.drop h.start_offset).take (h.end_offset - h.start_offset)) with
       | none => MmapGetResult.invalidRead
       | some els => MmapGetResult.elements els) := by
  rw [InvertedIndexMmap.get, if_neg hguard, hdr]

/-- C8: saving an in-memory index with `convert_and_save` and reloading it
with `load` gives an mmap index whose `get(d)`, for every dimension `d`
holding posting list `p` (hence every `d < N`), returns exactly `p`'s
element sequence — same length, ids, weights and max_next_weights. -/
theorem claim_C8_mmap_roundtrip (ram : InvertedIndexRam) (d : Nat)
    (p : PostingList) (hp : ram.postings[d]? = some p) :
    (InvertedIndexMmap.load (InvertedIndexMmap.convert_and_save ram)).get d =
      MmapGetResult.elements p.elements := by
  have hdlt : d < ram.postings.length := (List.getElem?_eq_some.mp hp).1
  have hheadlen : (savePostingHeaders ram.postings (16 * ram.postings.length)).length
      = 16 * ram.postings.length := length_savePostingHeaders ram.postings _
  have hload : InvertedIndexMmap.load (InvertedIndexMmap.convert_and_save ram) =
      ⟨mmapFileBytes ram, ram.postings.length⟩ := rfl
  have hslice : ((mmapFileBytes ram).drop (d * 16)).take 16 =
      encodeHeader ⟨16 * ram.postings.length + 12 * eltsBefore ram.postings d,
        16 * ram.postings.length + 12 * eltsBefore ram.postings d
          + 12 * p.elements.length⟩ := by
    rw [mmapFileBytes, List.drop_append_eq_append_drop, hheadlen,
      List.take_append_eq_append_take]
    have hdroplen :
        ((savePostingHeaders ram.postings (16 * ram.postings.length)).drop
          (d * 16)).length = 16 * ram.postings.length - d * 16 := by
      rw [List.length_drop, hheadlen]
    have h16 : 16 - (16 * ram.postings.length - d * 16) = 0 := by omega
    rw [hdroplen, h16, List.take_zero, List.append_nil]
    exact savePostingHeaders_slice ram.postings (16 * ram.postings.length) d p hp
  rw [hload]
  rw [mmapGet_eq_of ⟨mmapFileBytes ram, ram.postings.length⟩ d
    ⟨16 * ram.postings.length + 12 * eltsBefore ram.postings d,
      16 * ram.postings.length + 12 * eltsBefore ram.postings d
        + 12 * p.elements.length⟩
    (by show ¬ d > ram.postings.length; omega)
    (by rw [show (⟨mmapFileBytes ram, ram.postings.length⟩ :
        InvertedIndexMmap).mmap = mmapFileBytes ram from rfl, hslice,
        decodeHeader_encodeHeader])]
  have hsub : 16 * ram.postings.length + 12 * eltsBefore ram.postings d
      + 12 * p.elements.length -
      (16 * ram.postings.length + 12 * eltsBefore ram.postings d) =
      12 * p.elements.length := by omega
  have helts : ((mmapFileBytes ram).drop
      (16 * ram.postings.length + 12 * eltsBefore ram.postings d)).take
        (12 * p.elements.length) = (p.elements.map encodeElement).flatten := by
    rw [mmapFileBytes, List.drop_append_eq_append_drop, hheadlen]
    have hz : (savePostingHeaders ram.postings (16 * ram.postings.length)).drop
        (16 * ram.postings.length + 12 * eltsBefore ram.postings d) = [] := by
      apply List.drop_eq_nil_of_le
      rw [hheadlen]
      omega
    rw [hz, List.nil_append]
    have hst : 16 * ram.postings.length + 12 * eltsBefore ram.postings d
        - 16 * ram.postings.length = 12 * eltsBefore ram.postings d := by omega
    rw [hst]
    exact savePostingElements_slice ram.postings d p hp
  dsimp only
  rw [hsub, helts, decodeElements_flatten]

/-- Witness for C8 at a concrete input (Scenario D style). -/
theorem claim_C8_witness :
    (c3Ram.postings[1]? = some (PostingList.from [(2, 20)])) ∧
    ((InvertedIndexMmap.load (InvertedIndexMmap.convert_and_save c3Ram)).get 1 =
      MmapGetResult.elements (PostingList.from [(2, 20)]).elements) :=
  ⟨of_decide_eq_true (by with_unfolding_all rfl),
    claim_C8_mmap_roundtrip c3Ram 1 (PostingList.from [(2, 20)])
      (of_decide_eq_true (by with_unfolding_all rfl))⟩

/-! ### C1 and C2: pruning is not score-preserving -/

/-- A three-dimension index whose longest posting list (dim 0) has small
weights, whose second-longest (dim 1) has its second element far ahead (id
20), and whose shortest (dim 2) carries larger weights at ids 2 and 3. -/
def c2Index : InvertedIndex :=
  (((InvertedIndexBuilder.new.add 0
      (PostingList.from [(1, 1), (2, 1), (3, 1), (10, 1)])).add 1
      (PostingList.from [(1, 1), (20, 1), (30, 1)])).add 2
      (PostingList.from [(2, 2), (3, 3)])).build

/-- A query with tiny weights on dims 0 and 1 and a larger weight on dim 2. -/
def c2Query : SparseVector := SparseVector.mk [0, 1, 2] [1/100, 1/100, 4]

theorem searchLoop_step_some (doPrune : Bool) (s s3 : SearchContext) (fuel : Nat)
    (h : searchStep doPrune s = some s3) :
    searchLoop doPrune s (fuel + 1) = searchLoop doPrune s3 fuel := by
  simp only [searchLoop]
  rw [h]

theorem searchLoop_step_none (doPrune : Bool) (s : SearchContext) (fuel : Nat)
    (h : searchStep doPrune s = none) :
    searchLoop doPrune s (fuel + 1) = s := by
  simp only [searchLoop]
  rw [h]

theorem searchStep_eq_of (doPrune : Bool) (s s1 : SearchContext)
    (c : ScoredCandidate) (q2 : List ScoredCandidate) (s4 : SearchContext)
    (hadv : s.advance = (some c, s1))
    (hpush : queuePush s1.top s1.result_queue c = q2)
    (hs3 : (if doPrune ∧ q2.length = s1.top then
              match queueMinScore q2 with
              | some m =>
                SearchContext.prune_longest_posting_list
                  { s1 with result_queue := q2 } m
              | none => { s1 with result_queue := q2 }
            else { s1 with result_queue := q2 }) = s4) :
    searchStep doPrune s = some s4 := by
  simp only [searchStep]
  rw [hadv]
  dsimp only
  rw [hpush, hs3]

/-- The dim-0 posting list of `c2Index` after building. -/
def c2El0 : List PostingElement :=
  [⟨1, 1, ((1 : ℚ) : WithBot ℚ)⟩, ⟨2, 1, ((1 : ℚ) : WithBot ℚ)⟩,
   ⟨3, 1, ((1 : ℚ) : WithBot ℚ)⟩, ⟨10, 1, ⊥⟩]

/-- The dim-1 posting list of `c2Index` after building. -/
def c2El1 : List PostingElement :=
  [⟨1, 1, ((1 : ℚ) : WithBot ℚ)⟩, ⟨20, 1, ((1 : ℚ) : WithBot ℚ)⟩, ⟨30, 1, ⊥⟩]

/-- The dim-2 posting list of `c2Index` after building. -/
def c2El2 : List PostingElement :=
  [⟨2, 2, ((3 : ℚ) : WithBot ℚ)⟩, ⟨3, 3, ⊥⟩]

/-- The search state over `c2Index`/`c2Query` with given cursors and queue. -/
def c2St (a b c : Nat) (q : List ScoredCandidate) : SearchContext :=
  ⟨[⟨⟨c2El0, a⟩, 0⟩, ⟨⟨c2El1, b⟩, 1⟩, ⟨⟨c2El2, c⟩, 2⟩], c2Query, 1, q⟩

theorem c2_new_eq :
    (SearchContext.new c2Query 1 c2Index).sort_posting_lists_by_len =
      c2St 0 0 0 [] :=
  of_decide_eq_true (by with_unfolding_all rfl)

theorem c2_fuel : (c2St 0 0 0 []).totalRemaining = 9 := by decide

theorem c2_p1 : searchStep true (c2St 0 0 0 []) =
    some (c2St 4 1 0 [⟨1/50, 1⟩]) :=
  of_decide_eq_true (by with_unfolding_all rfl)

set_option maxRecDepth 2000 in
theorem c2_p2 : searchStep true (c2St 4 1 0 [⟨1/50, 1⟩]) =
    some (c2St 4 1 1 [⟨8, 2⟩]) := by
  with_unfolding_all rfl

set_option maxRecDepth 2000 in
theorem c2_p3 : searchStep true (c2St 4 1 1 [⟨8, 2⟩]) =
    some (c2St 4 1 2 [⟨12, 3⟩]) := by
  with_unfolding_all rfl

set_option maxRecDepth 2000 in
theorem c2_p4 : searchStep true (c2St 4 1 2 [⟨12, 3⟩]) =
    some (c2St 4 2 2 [⟨12, 3⟩]) := by
  with_unfolding_all rfl

set_option maxRecDepth 2000 in
theorem c2_p5 : searchStep true (c2St 4 2 2 [⟨12, 3⟩]) =
    some (c2St 4 3 2 [⟨12, 3⟩]) := by
  with_unfolding_all rfl

theorem c2_p6 : searchStep true (c2St 4 3 2 [⟨12, 3⟩]) = none :=
  of_decide_eq_true (by with_unfolding_all rfl)

/-- With pruning the search over `c2Index` returns top score 12. -/
theorem c2_search_eval :
    (SearchContext.new c2Query 1 c2Index).search = [⟨12, 3⟩] := by
  have hloop : searchLoop true (c2St 0 0 0 []) 10 = c2St 4 3 2 [⟨12, 3⟩] :=
    ((searchLoop_step_some true _ _ 9 c2_p1).trans
      ((searchLoop_step_some true _ _ 8 c2_p2).trans
        ((searchLoop_step_some true _ _ 7 c2_p3).trans
          ((searchLoop_step_some true _ _ 6 c2_p4).trans
            ((searchLoop_step_some true _ _ 5 c2_p5).trans
              (searchLoop_step_none true _ 4 c2_p6))))))
  simp only [SearchContext.search]
  rw [c2_new_eq, c2_fuel, hloop]
  decide

theorem c2_n1 : searchStep false (c2St 0 0 0 []) =
    some (c2St 1 1 0 [⟨1/50, 1⟩]) :=
  of_decide_eq_true (by with_unfolding_all rfl)

set_option maxRecDepth 2000 in
theorem c2_n2 : searchStep false (c2St 1 1 0 [⟨1/50, 1⟩]) =
    some (c2St 2 1 1 [⟨801/100, 2⟩]) := by
  with_unfolding_all rfl

set_option maxRecDepth 2000 in
theorem c2_n3 : searchStep false (c2St 2 1 1 [⟨801/100, 2⟩]) =
    some (c2St 3 1 2 [⟨1201/100, 3⟩]) := by
  with_unfolding_all rfl

set_option maxRecDepth 2000 in
theorem c2_n4 : searchStep false (c2St 3 1 2 [⟨1201/100, 3⟩]) =
    some (c2St 4 1 2 [⟨1201/100, 3⟩]) := by
  with_unfolding_all rfl

set_option maxRecDepth 2000 in
theorem c2_n5 : searchStep false (c2St 4 1 2 [⟨1201/100, 3⟩]) =
    some (c2St 4 2 2 [⟨1201/100, 3⟩]) := by
  with_unfolding_all rfl

set_option maxRecDepth 2000 in
theorem c2_n6 : searchStep false (c2St 4 2 2 [⟨1201/100, 3⟩]) =
    some (c2St 4 3 2 [⟨1201/100, 3⟩]) := by
  with_unfolding_all rfl

theorem c2_n7 : searchStep false (c2St 4 3 2 [⟨1201/100, 3⟩]) = none :=
  of_decide_eq_true (by with_unfolding_all rfl)

set_option maxRecDepth 2000 in
/-- Without pruning the search over `c2Index` returns top score 12.01. -/
theorem c2_searchWithoutPruning_eval :
    (SearchContext.new c2Query 1 c2Index).searchWithoutPruning =
      [⟨1201/100, 3⟩] := by
  have hloop : searchLoop false (c2St 0 0 0 []) 10 =
      c2St 4 3 2 [⟨1201/100, 3⟩] :=
    ((searchLoop_step_some false _ _ 9 c2_n1).trans
      ((searchLoop_step_some false _ _ 8 c2_n2).trans
        ((searchLoop_step_some false _ _ 7 c2_n3).trans
          ((searchLoop_step_some false _ _ 6 c2_n4).trans
            ((searchLoop_step_some false _ _ 5 c2_n5).trans
              ((searchLoop_step_some false _ _ 4 c2_n6).trans
                (searchLoop_step_none false _ 3 c2_n7)))))))
  simp only [SearchContext.searchWithoutPruning]
  rw [c2_new_eq, c2_fuel, hloop]
  with_unfolding_all rfl

/-- C2: pruning changes the top-K scores.  After the first candidate
(score 2/100) fills the K=1 queue, `prune_longest_posting_list` skips the
dim-0 iterator to the head id of `postings_iterators[1]` (dim 1, id 20) —
but the dim-2 iterator at position 2 still stands at id 2 < 20, so records
2 and 3 lose their dim-0 contribution of 1/100: the returned top score is
12 with pruning and 12.01 (= 1201/100) without. -/
theorem claim_C2_pruning_changes_scores :
    (SearchContext.new c2Query 1 c2Index).search =
      [ScoredCandidate.mk 12 3] ∧
    (SearchContext.new c2Query 1 c2Index).searchWithoutPruning =
      [ScoredCandidate.mk (1201/100) 3] ∧
    (SearchContext.new c2Query 1 c2Index).search.map ScoredCandidate.score ≠
      (SearchContext.new c2Query 1 c2Index).searchWithoutPruning.map
        ScoredCandidate.score := by
  refine ⟨c2_search_eval, c2_searchWithoutPruning_eval, ?_⟩
  rw [c2_search_eval, c2_searchWithoutPruning_eval]
  exact of_decide_eq_true (by with_unfolding_all rfl)

/-! ### C1: the three query paths of the storage -/

/-- The stored corpus for the three-way query comparison: the posting lists
it induces are exactly those of `c2Index` (dim 0: records 1, 2, 3, 10 with
weight 1; dim 1: records 1, 20, 30 with weight 1; dim 2: records 2 and 3
with weights 2 and 3). -/
def c1Records : List (Nat × SparseVector) :=
  [(1, SparseVector.mk [0, 1] [1, 1]),
   (2, SparseVector.mk [0, 2] [1, 2]),
   (3, SparseVector.mk [0, 2] [1, 3]),
   (10, SparseVector.mk [0] [1]),
   (20, SparseVector.mk [1] [1]),
   (30, SparseVector.mk [1] [1])]

/-- The storage holding `c1Records` after `build_immutable_index`. -/
def c1Storage : Option SparseVectorStorage :=
  (SparseVectorStorage.new.addAll c1Records).toOption.bind
    SparseVectorStorage.build_immutable_index

/-- The vector slots of `c1Storage` (`None` fillers at the unused ids). -/
def c1Slots : List (Option SparseVector) :=
  [none, some (SparseVector.mk [0, 1] [1, 1]),
   some (SparseVector.mk [0, 2] [1, 2]), some (SparseVector.mk [0, 2] [1, 3])]
  ++ List.replicate 6 none ++ [some (SparseVector.mk [0] [1])]
  ++ List.replicate 9 none ++ [some (SparseVector.mk [1] [1])]
  ++ List.replicate 9 none ++ [some (SparseVector.mk [1] [1])]

/-- The mutable index of `c1Storage`. -/
def c1MIdx : List (Nat × List Nat) :=
  [(0, [1, 2, 3, 10]), (1, [1, 20, 30]), (2, [2, 3])]

/-- The storage value held inside `c1Storage`. -/
def c1St : SparseVectorStorage := ⟨c1Slots, c1MIdx, some c2Index⟩

set_option maxRecDepth 2000 in
theorem c1Storage_eq : c1Storage = some c1St :=
  of_decide_eq_true (by with_unfolding_all rfl)

set_option maxRecDepth 2000 in
theorem c1_full_scan : c1St.query_full_scan 1 c2Query =
    [ScoredCandidate.mk (1201/100) 3] :=
  of_decide_eq_true (by with_unfolding_all rfl)

set_option maxRecDepth 2000 in
theorem c1_mutable : c1St.query_mutable_index 1 c2Query =
    some [ScoredCandidate.mk (1201/100) 3] :=
  of_decide_eq_true (by with_unfolding_all rfl)

theorem c1_immutable : c1St.query_immutable_index 1 c2Query =
    some [ScoredCandidate.mk 12 3] := by
  show some (SearchContext.new c2Query 1 c2Index).search = _
  rw [c2_search_eval]

/-- C1: the three query paths are not score-equivalent.  On the stored
corpus `c1Records` with query `c2Query` (strictly ascending indices
[0, 1, 2]) and K = 1, `query_full_scan` and `query_mutable_index` both
return the true top score 12.01 (= 1201/100, record 3), but
`query_immutable_index` returns 12 for the same record: the pruning step
of `SearchContext::search` discards record 3's dim-0 contribution.  The
scores are exact rationals of the modelled arithmetic, and the gap 1/100
is a real scoring difference, not a floating-point rounding artifact. -/
theorem claim_C1_three_way_divergence :
    c1Storage.map (fun st => st.query_full_scan 1 c2Query) =
      some [ScoredCandidate.mk (1201/100) 3] ∧
    c1Storage.bind (fun st => st.query_mutable_index 1 c2Query) =
      some [ScoredCandidate.mk (1201/100) 3] ∧
    c1Storage.bind (fun st => st.query_immutable_index 1 c2Query) =
      some [ScoredCandidate.mk 12 3] ∧
    (12 : ℚ) ≠ 1201 / 100 := by
  refine ⟨?_, ?_, ?_, ?_⟩
  · rw [c1Storage_eq]
    show some (c1St.query_full_scan 1 c2Query) = _
    rw [c1_full_scan]
  · rw [c1Storage_eq]
    show c1St.query_mutable_index 1 c2Query = _
    rw [c1_mutable]
  · rw [c1Storage_eq]
    show c1St.query_immutable_index 1 c2Query = _
    rw [c1_immutable]
  · exact of_decide_eq_true (by with_unfolding_all rfl)


/-! ### C7: ascending candidate ids across advance calls -/

/-- The fold of `SearchContext::advance` computing the minimal peeked id
(`min_record_id`), with explicit accumulator. -/
def minHeadFold (L : List IndexedPostingListIterator) (a : Nat) : Nat :=
  L.foldl (fun m it => match it.posting_list_iterator.peek with
      | some e => min m e.id
      | none => m) a

/-- The per-iterator update of `SearchContext::advance`: iterators whose
head carries the minimal id move past it. -/
def advFun (mid : Nat) (it : IndexedPostingListIterator) :
    IndexedPostingListIterator :=
  match it.posting_list_iterator.peek with
  | some e =>
    if e.id = mid then
      { it with posting_list_iterator := it.posting_list_iterator.advance }
    else it
  | none => it

/-- The candidate ids produced by the successive `advance` calls in the
loop of `SearchContext::search` (one per iteration; `doPrune` interleaves
`prune_longest_posting_list` exactly as the source loop does), until
`advance` returns `None` or the fuel runs out. -/
def searchTrace (doPrune : Bool) : SearchContext → Nat → List Nat
  | _, 0 => []
  | s, fuel + 1 =>
    match s.advance.1, searchStep doPrune s with
    | some c, some s1 => c.vector_id :: searchTrace doPrune s1 fuel
    | _, _ => []

theorem minHeadFold_le_init (L : List IndexedPostingListIterator) :
    ∀ a : Nat, minHeadFold L a ≤ a := by
  induction L with
  | nil => intro a; exact Nat.le_refl a
  | cons it L ih =>
    intro a
    show minHeadFold L (match it.posting_list_iterator.peek with
      | some e => min a e.id
      | none => a) ≤ a
    rcases h : it.posting_list_iterator.peek with _ | e
    · exact ih a
    · exact Nat.le_trans (ih (min a e.id)) (Nat.min_le_left _ _)

theorem minHeadFold_le_head (L : List IndexedPostingListIterator) :
    ∀ a : Nat, ∀ it ∈ L, ∀ e, it.posting_list_iterator.peek = some e →
      minHeadFold L a ≤ e.id := by
  induction L with
  | nil => intro a it hit; exact absurd hit (List.not_mem_nil it)
  | cons it0 L ih =>
    intro a it hit e he
    rcases List.mem_cons.mp hit with rfl | hmem
    · show minHeadFold L (match it.posting_list_iterator.peek with
        | some e => min a e.id
        | none => a) ≤ e.id
      rw [he]
      exact Nat.le_trans (minHeadFold_le_init L _) (Nat.min_le_right _ _)
    · exact ih _ it hmem e he

theorem le_minHeadFold (L : List IndexedPostingListIterator) :
    ∀ a b : Nat, b ≤ a →
    (∀ it ∈ L, ∀ e, it.posting_list_iterator.peek = some e → b ≤ e.id) →
    b ≤ minHeadFold L a := by
  induction L with
  | nil => intro a b hba _; exact hba
  | cons it0 L ih =>
    intro a b hba hh
    show b ≤ minHeadFold L (match it0.posting_list_iterator.peek with
      | some e => min a e.id
      | none => a)
    rcases h : it0.posting_list_iterator.peek with _ | e
    · exact ih a b hba (fun it hit => hh it (List.mem_cons_of_mem it0 hit))
    · exact ih _ b
        (Nat.le_min.mpr ⟨hba, hh it0 (List.mem_cons_self it0 L) e h⟩)
        (fun it hit => hh it (List.mem_cons_of_mem it0 hit))


theorem advance_some_spec (s : SearchContext) (c : ScoredCandidate)
    (s1 : SearchContext) (h : s.advance = (some c, s1)) :
    c.vector_id = minHeadFold s.postings_iterators u32MAX ∧
    (∃ it ∈ s.postings_iterators,
      it.posting_list_iterator.peek.isSome = true) ∧
    s1.postings_iterators =
      s.postings_iterators.map (advFun (minHeadFold s.postings_iterators u32MAX)) := by
  unfold SearchContext.advance at h
  rcases hf : s.postings_iterators.any
      (fun it => it.posting_list_iterator.peek.isSome) with _ | _
  · rw [hf] at h
    exact absurd (congrArg Prod.fst h) (by simp)
  · rw [hf] at h
    simp only [Bool.not_true, Bool.false_eq_true, if_false] at h
    obtain ⟨h1, h2⟩ := Prod.mk.injEq .. ▸ h
    refine ⟨?_, List.any_eq_true.mp hf, ?_⟩
    · rw [← Option.some_inj.mp h1]; rfl
    · rw [← h2]; rfl


theorem advance_elements_eq (pl : PostingListIterator) :
    pl.advance.elements = pl.elements := by
  unfold PostingListIterator.advance
  split <;> rfl

theorem advance_cursor_ge (pl : PostingListIterator) :
    pl.current_index ≤ pl.advance.current_index := by
  unfold PostingListIterator.advance
  split
  · exact Nat.le_succ _
  · exact Nat.le_refl _

theorem advFun_elements_eq (mid : Nat) (it : IndexedPostingListIterator) :
    (advFun mid it).posting_list_iterator.elements =
      it.posting_list_iterator.elements := by
  unfold advFun
  split
  · split
    · exact advance_elements_eq _
    · rfl
  · rfl

theorem advFun_cursor_ge (mid : Nat) (it : IndexedPostingListIterator) :
    it.posting_list_iterator.current_index ≤
      (advFun mid it).posting_list_iterator.current_index := by
  unfold advFun
  split
  · split
    · exact advance_cursor_ge _
    · exact Nat.le_refl _
  · exact Nat.le_refl _

/-- A head bound survives moving the cursor forward on a strictly sorted
posting list: every later peeked element has a strictly larger id. -/
theorem head_gt_of_shift (pl pl2 : PostingListIterator) (lastId : Nat)
    (hel : pl2.elements = pl.elements)
    (hcur : pl.current_index ≤ pl2.current_index)
    (hsort : pl.elements.Pairwise (fun a b => a.id < b.id))
    (hgt : ∀ e, pl.peek = some e → lastId < e.id) :
    ∀ e2, pl2.peek = some e2 → lastId < e2.id := by
  intro e2 he2
  unfold PostingListIterator.peek at he2
  rw [hel] at he2
  have hlt2 : pl2.current_index < pl.elements.length :=
    (List.getElem?_eq_some.mp he2).1
  have hlt : pl.current_index < pl.elements.length := Nat.lt_of_le_of_lt hcur hlt2
  have he : pl.peek = some (pl.elements[pl.current_index]) :=
    List.getElem?_eq_some.mpr ⟨hlt, rfl⟩
  have h1 := hgt _ he
  rcases Nat.lt_or_ge pl.current_index pl2.current_index with hc | hc
  · exact Nat.lt_trans h1 (sorted_id_strict_mono pl.elements hsort _ _ hc _ _ he he2)
  · have hcc : pl2.current_index = pl.current_index := Nat.le_antisymm hc hcur
    rw [hcc] at he2
    have h4 : some (pl.elements[pl.current_index]) = some e2 := he.symm.trans he2
    rw [← Option.some_inj.mp h4]
    exact h1

/-- An iterator whose head is at least `mid` peeks strictly above `mid`
after the `advance` update. -/
theorem advFun_head_gt (mid : Nat) (it : IndexedPostingListIterator)
    (hsort : it.posting_list_iterator.elements.Pairwise (fun a b => a.id < b.id))
    (hmin : ∀ e, it.posting_list_iterator.peek = some e → mid ≤ e.id) :
    ∀ e2, (advFun mid it).posting_list_iterator.peek = some e2 → mid < e2.id := by
  intro e2 he2
  unfold advFun at he2
  rcases hp : it.posting_list_iterator.peek with _ | e
  · rw [hp] at he2
    dsimp only at he2
    rw [hp] at he2
    exact absurd he2 (by simp)
  · rw [hp] at he2
    dsimp only at he2
    by_cases hid : e.id = mid
    · rw [if_pos hid] at he2
      dsimp only at he2
      have hc : it.posting_list_iterator.current_index <
          it.posting_list_iterator.elements.length := by
        unfold PostingListIterator.peek at hp
        exact (List.getElem?_eq_some.mp hp).1
      have hadv : it.posting_list_iterator.advance.current_index =
          it.posting_list_iterator.current_index + 1 := by
        unfold PostingListIterator.advance
        rw [if_pos hc]
      unfold PostingListIterator.peek at he2
      rw [advance_elements_eq, hadv] at he2
      obtain ⟨hlt2, rfl⟩ := List.getElem?_eq_some.mp he2
      have := sorted_id_strict_mono it.posting_list_iterator.elements hsort
        it.posting_list_iterator.current_index
        (it.posting_list_iterator.current_index + 1) (Nat.lt_succ_self _)
        e _ (by unfold PostingListIterator.peek at hp; exact hp)
        (List.getElem?_eq_some.mpr ⟨hlt2, rfl⟩)
      rw [← hid]
      exact this
    · rw [if_neg hid] at he2
      rw [hp] at he2
      obtain rfl := Option.some_inj.mp he2
      exact Nat.lt_of_le_of_ne (hmin _ hp) (fun h2 => hid h2.symm)


/-- Shift relation between two iterator lists: every iterator of the
second arises from one of the first with the same elements and a cursor
moved (weakly) forward. -/
def ItersShift (L L2 : List IndexedPostingListIterator) : Prop :=
  ∀ it2 ∈ L2, ∃ it ∈ L,
    it2.posting_list_iterator.elements = it.posting_list_iterator.elements ∧
    it.posting_list_iterator.current_index ≤
      it2.posting_list_iterator.current_index

theorem itersShift_refl (L : List IndexedPostingListIterator) :
    ItersShift L L :=
  fun it2 h2 => ⟨it2, h2, rfl, Nat.le_refl _⟩

theorem itersShift_trans (L1 L2 L3 : List IndexedPostingListIterator)
    (h12 : ItersShift L1 L2) (h23 : ItersShift L2 L3) : ItersShift L1 L3 := by
  intro it3 h3
  obtain ⟨it2, h2, hel23, hcur23⟩ := h23 it3 h3
  obtain ⟨it1, h1, hel12, hcur12⟩ := h12 it2 h2
  exact ⟨it1, h1, hel23.trans hel12, Nat.le_trans hcur12 hcur23⟩

theorem advFun_map_shift (mid : Nat) (L : List IndexedPostingListIterator) :
    ItersShift L (L.map (advFun mid)) := by
  intro it2 h2
  obtain ⟨it, hit, rfl⟩ := List.mem_map.mp h2
  exact ⟨it, hit, advFun_elements_eq mid it, advFun_cursor_ge mid it⟩

theorem prune_shift (s : SearchContext) (m : ℚ)
    (hsort : ∀ it ∈ s.postings_iterators,
      it.posting_list_iterator.elements.Pairwise (fun a b => a.id < b.id)) :
    ItersShift s.postings_iterators
      (s.prune_longest_posting_list m).postings_iterators := by
  unfold SearchContext.prune_longest_posting_list
  rcases hL : s.postings_iterators with _ | ⟨it0, rest⟩
  · dsimp only
    rw [← hL]
    exact itersShift_refl _
  · dsimp only
    rcases hp : it0.posting_list_iterator.peek with _ | e
    · rw [← hL]
      exact itersShift_refl _
    · dsimp only
      split
      · intro it2 h2
        rcases List.mem_cons.mp h2 with rfl | hmem
        · have hc : it0.posting_list_iterator.current_index ≤
              it0.posting_list_iterator.elements.length :=
            Nat.le_of_lt (List.getElem?_eq_some.mp hp).1
          refine ⟨it0, hL ▸ List.mem_cons_self it0 rest, ?_, ?_⟩
          · exact (skip_to_spec_aux _ _ _
              (hsort it0 (hL ▸ List.mem_cons_self it0 rest)) hc).2.2.1
          · exact (skip_to_spec_aux _ _ _
              (hsort it0 (hL ▸ List.mem_cons_self it0 rest)) hc).1
        · exact ⟨it2, hL ▸ List.mem_cons_of_mem it0 hmem, rfl, Nat.le_refl _⟩
      · rw [← hL]
        exact itersShift_refl _


theorem head_gt_of_itersShift (L L2 : List IndexedPostingListIterator)
    (lastId : Nat) (hshift : ItersShift L L2)
    (hsort : ∀ it ∈ L,
      it.posting_list_iterator.elements.Pairwise (fun a b => a.id < b.id))
    (hgt : ∀ it ∈ L, ∀ e, it.posting_list_iterator.peek = some e →
      lastId < e.id) :
    ∀ it2 ∈ L2, ∀ e, it2.posting_list_iterator.peek = some e →
      lastId < e.id := by
  intro it2 h2 e he
  obtain ⟨it, hit, hel, hcur⟩ := hshift it2 h2
  exact head_gt_of_shift it.posting_list_iterator it2.posting_list_iterator
    lastId hel hcur (hsort it hit) (hgt it hit) e he

theorem sorted_of_itersShift (L L2 : List IndexedPostingListIterator)
    (hshift : ItersShift L L2)
    (hsort : ∀ it ∈ L,
      it.posting_list_iterator.elements.Pairwise (fun a b => a.id < b.id)) :
    ∀ it2 ∈ L2,
      it2.posting_list_iterator.elements.Pairwise (fun a b => a.id < b.id) := by
  intro it2 h2
  obtain ⟨it, hit, hel, _⟩ := hshift it2 h2
  rw [hel]
  exact hsort it hit

theorem idsMax_of_itersShift (L L2 : List IndexedPostingListIterator)
    (hshift : ItersShift L L2)
    (hmax : ∀ it ∈ L, ∀ e ∈ it.posting_list_iterator.elements,
      e.id ≤ u32MAX) :
    ∀ it2 ∈ L2, ∀ e ∈ it2.posting_list_iterator.elements, e.id ≤ u32MAX := by
  intro it2 h2
  obtain ⟨it, hit, hel, _⟩ := hshift it2 h2
  rw [hel]
  exact hmax it hit

/-- `searchStep` success decomposed: `advance` produced a candidate, and
the resulting iterators are those after `advance`, possibly pruned. -/
theorem searchStep_some_spec (doPrune : Bool) (s s2 : SearchContext)
    (h : searchStep doPrune s = some s2) :
    ∃ c s1, s.advance = (some c, s1) ∧
      (s2.postings_iterators = s1.postings_iterators ∨
       ∃ (m : ℚ) (q : List ScoredCandidate),
         s2.postings_iterators =
           (SearchContext.prune_longest_posting_list
             { s1 with result_queue := q } m).postings_iterators) := by
  unfold searchStep at h
  rcases hadv : s.advance with ⟨fst, snd⟩
  rw [hadv] at h
  rcases fst with _ | c
  · exact absurd h (by simp)
  · refine ⟨c, snd, rfl, ?_⟩
    dsimp only at h
    by_cases hand : doPrune = true ∧
        (queuePush snd.top snd.result_queue c).length = snd.top
    · rw [if_pos hand] at h
      rcases hq : queueMinScore (queuePush snd.top snd.result_queue c) with _ | m
      · rw [hq] at h
        left
        rw [← Option.some_inj.mp h]
      · rw [hq] at h
        right
        exact ⟨m, queuePush snd.top snd.result_queue c,
          by rw [← Option.some_inj.mp h]⟩
    · rw [if_neg hand] at h
      left
      rw [← Option.some_inj.mp h]


/-- A fresh candidate id lies strictly above any bound strictly below all
current heads (u32 ids: the fold seed `u32::MAX` cannot undercut it). -/
theorem advance_fst_gt (s : SearchContext) (c : ScoredCandidate)
    (s1 : SearchContext) (lastId : Nat) (hadv : s.advance = (some c, s1))
    (hmax : ∀ it ∈ s.postings_iterators, ∀ e ∈ it.posting_list_iterator.elements,
      e.id ≤ u32MAX)
    (hgt : ∀ it ∈ s.postings_iterators, ∀ e,
      it.posting_list_iterator.peek = some e → lastId < e.id) :
    lastId < c.vector_id := by
  obtain ⟨hid, ⟨it0, hit0, hsome⟩, _⟩ := advance_some_spec s c s1 hadv
  obtain ⟨e0, he0⟩ := Option.isSome_iff_exists.mp hsome
  have he0m : e0 ∈ it0.posting_list_iterator.elements := by
    unfold PostingListIterator.peek at he0
    exact List.getElem?_mem he0
  have h1 : lastId < e0.id := hgt it0 hit0 e0 he0
  have h2 : lastId + 1 ≤ u32MAX :=
    Nat.le_trans (Nat.succ_le_of_lt h1) (hmax it0 hit0 e0 he0m)
  rw [hid]
  exact Nat.lt_of_lt_of_le (Nat.lt_succ_self lastId)
    (le_minHeadFold s.postings_iterators u32MAX (lastId + 1) h2
      (fun it hit e he => Nat.succ_le_of_lt (hgt it hit e he)))

/-- The first id of the remaining trace lies strictly above any bound
strictly below all current heads. -/
theorem searchTrace_head_lt (doPrune : Bool) (s : SearchContext) (fuel : Nat)
    (lastId : Nat)
    (hmax : ∀ it ∈ s.postings_iterators, ∀ e ∈ it.posting_list_iterator.elements,
      e.id ≤ u32MAX)
    (hgt : ∀ it ∈ s.postings_iterators, ∀ e,
      it.posting_list_iterator.peek = some e → lastId < e.id) :
    ∀ y ∈ (searchTrace doPrune s fuel).head?, lastId < y := by
  cases fuel with
  | zero =>
    intro y hy
    exact absurd hy (by rw [searchTrace]; intro hc; cases hc)
  | succ n =>
    rw [searchTrace]
    rcases hadv : s.advance with ⟨fst, snd⟩
    dsimp only
    rcases fst with _ | c
    · intro y hy; cases hy
    · rcases hstep : searchStep doPrune s with _ | s2
      · intro y hy; cases hy
      · intro y hy
        obtain rfl : c.vector_id = y := Option.some_inj.mp hy
        exact advance_fst_gt s c snd lastId hadv hmax hgt

theorem searchTrace_chain (doPrune : Bool) (fuel : Nat) :
    ∀ s : SearchContext,
    (∀ it ∈ s.postings_iterators,
      it.posting_list_iterator.elements.Pairwise (fun a b => a.id < b.id)) →
    (∀ it ∈ s.postings_iterators, ∀ e ∈ it.posting_list_iterator.elements,
      e.id ≤ u32MAX) →
    List.Chain' (fun a b => a < b) (searchTrace doPrune s fuel) := by
  induction fuel with
  | zero => intro s _ _; rw [searchTrace]; exact List.chain'_nil
  | succ n ih =>
    intro s hsort hmax
    rw [searchTrace]
    rcases hadv : s.advance with ⟨fst, snd⟩
    dsimp only
    rcases fst with _ | c
    · exact List.chain'_nil
    · rcases hstep : searchStep doPrune s with _ | s2
      · exact List.chain'_nil
      · obtain ⟨c2, s1, hadv2, hiters⟩ := searchStep_some_spec doPrune s s2 hstep
        rw [hadv] at hadv2
        obtain ⟨h1, h2⟩ := Prod.mk.injEq .. ▸ hadv2
        obtain rfl := Option.some_inj.mp h1
        obtain rfl := h2
        obtain ⟨hmid, _, hs1iters⟩ := advance_some_spec s c snd hadv
        have hshift1 : ItersShift s.postings_iterators snd.postings_iterators := by
          rw [hs1iters]; exact advFun_map_shift _ _
        have hheads1 : ∀ it ∈ snd.postings_iterators, ∀ e,
            it.posting_list_iterator.peek = some e → c.vector_id < e.id := by
          rw [hs1iters]
          intro it2 h2m e he
          obtain ⟨it, hit, rfl⟩ := List.mem_map.mp h2m
          rw [hmid]
          exact advFun_head_gt _ it (hsort it hit)
            (fun e3 he3 => minHeadFold_le_head _ u32MAX it hit e3 he3) e he
        have hsort1 := sorted_of_itersShift _ _ hshift1 hsort
        have hmax1 := idsMax_of_itersShift _ _ hshift1 hmax
        have hshift2 : ItersShift snd.postings_iterators s2.postings_iterators := by
          rcases hiters with heq | ⟨m, q, heq⟩
          · rw [heq]; exact itersShift_refl _
          · rw [heq]
            exact prune_shift { snd with result_queue := q } m hsort1
        have hsort2 := sorted_of_itersShift _ _ hshift2 hsort1
        have hmax2 := idsMax_of_itersShift _ _ hshift2 hmax1
        have hheads2 := head_gt_of_itersShift _ _ c.vector_id hshift2 hsort1 hheads1
        refine List.chain'_cons'.mpr ⟨?_, ih s2 hsort2 hmax2⟩
        exact fun y hy => searchTrace_head_lt doPrune s2 n c.vector_id hmax2 hheads2 y hy


/-- C7: within a single search over a fixed inverted index whose posting
lists are strictly sorted by id (with u32 ids, as the source guarantees by
construction), the candidates produced by successive `SearchContext::advance`
calls — pruning possibly interleaved between them, exactly as in the
`search` loop — carry strictly ascending `vector_id` values, until `advance`
returns absent. -/
theorem claim_C7_ascending_candidates (doPrune : Bool) (s : SearchContext)
    (fuel : Nat)
    (hsort : ∀ it ∈ s.postings_iterators,
      it.posting_list_iterator.elements.Pairwise (fun a b => a.id < b.id))
    (hmax : ∀ it ∈ s.postings_iterators,
      ∀ e ∈ it.posting_list_iterator.elements, e.id ≤ u32MAX) :
    List.Chain' (fun a b => a < b) (searchTrace doPrune s fuel) :=
  searchTrace_chain doPrune fuel s hsort hmax

theorem claim_C7_witness :
    List.Chain' (fun a b => a < b) (searchTrace true (c2St 0 0 0 []) 10) :=
  claim_C7_ascending_candidates true (c2St 0 0 0 []) 10 (by decide) (by decide)

end SparseExp
